import Mathlib

/-!
Verification of the network architecture in `src/model/UNet.py`
(joint image+parameter diffusion UNet and its energy variant).

The development has three layers of modelling:

* a *shape-level* embedding: PyTorch modules become `Layer` values carrying
  their declared channel counts, and running a module becomes a partial
  function on tensor shapes `(N, C, H, W)` that fails exactly where PyTorch
  would raise a shape error.  The `UNet.__init__` assembly loops are
  translated loop-by-loop, and `UNet.forward` becomes a fold over the
  assembled stage lists that threads the skip-connection stack.
* a *value-level* functional skeleton: the data flow of `UNet.forward` and
  `UNet_Energy.forward` over opaque block functions, used to state
  non-interference facts (which inputs an output can depend on).
* a *real-valued* model of the two closed-form computations,
  `timestep_embedding` and the cross-modal attention softmax, over `ℝ`.

All definitions are translated from `src/model/UNet.py`; line numbers in
comments refer to that file.
-/

set_option autoImplicit false

namespace UNetSpec

/-- Shape of a rank-4 tensor `[N, C, H, W]` (batch, channel, height, width). -/
structure Shape4 where
  n : ℕ
  c : ℕ
  h : ℕ
  w : ℕ
  deriving DecidableEq, Repr

/--
Shape-level model of one PyTorch layer as assembled by `UNet.__init__`.
Each constructor carries the constructor arguments that matter for shapes:

* `conv2d cin cout k s p` — `nn.Conv2d(cin, cout, kernel_size=k, stride=s, padding=p)`
* `resblock cin cout tch` — `ResidualBlock(cin, cout, tch, dropout)` (lines 66-102)
* `attn ch heads`         — `AttentionBlock(ch, num_heads=heads)` (lines 106-126)
* `crossattn ch pdim heads` — `CrossModalAttentionBlock(ch, pdim, num_heads=heads)` (lines 130-178)
* `upsample ch useConv`   — `Upsample(ch, use_conv=useConv)` (lines 220-231)
* `downsample ch useConv` — `Downsample(ch, use_conv=useConv)` (lines 235-245)
* `gnorm ch`              — `norm_layer(ch) = nn.GroupNorm(32, ch)` (lines 61-62)
-/
inductive Layer where
  | conv2d (cin cout k s p : ℕ)
  | resblock (cin cout tch : ℕ)
  | attn (ch heads : ℕ)
  | crossattn (ch pdim heads : ℕ)
  | upsample (ch : ℕ) (useConv : Bool)
  | downsample (ch : ℕ) (useConv : Bool)
  | gnorm (ch : ℕ)
  deriving DecidableEq, Repr

/--
Output shape of `nn.Conv2d(cin, cout, k, stride=s, padding=p)` on `x`.
PyTorch raises if the input channel count differs from `cin`, or if the
computed output spatial size `(h + 2p - k) / s + 1` would be non-positive
(i.e. if `h + 2p < k`).
-/
def conv2dShape (cin cout k s p : ℕ) (x : Shape4) : Option Shape4 :=
  if x.c = cin ∧ k ≤ x.h + 2 * p ∧ k ≤ x.w + 2 * p then
    some ⟨x.n, cout, (x.h + 2 * p - k) / s + 1, (x.w + 2 * p - k) / s + 1⟩
  else none

/--
Shape semantics of one layer, given the shape `pf = (batch, feature-dim)` of
the shared parameter-feature vector (used by cross-modal attention) and the
runtime width `embD` of the time embedding (used by residual blocks).

* `resblock`: `norm(cin) → SiLU → Conv2d(cin,cout,3,p=1)`, add the projected
  time embedding (`Linear(tch, cout)`, requires `tch = embD`), then
  `norm(cout) → SiLU → Dropout → Conv2d(cout,cout,3,p=1)`, plus a shortcut of
  the same shape; spatial size is preserved (lines 93-102).
* `attn`: `norm(ch)` and two 1×1 convolutions require `C = ch` and spatial
  size ≥ 1; the head reshape requires `heads ∣ ch`; shape preserved
  (lines 116-126).
* `crossattn`: additionally the keys/values come from the parameter features,
  `nn.LayerNorm(pdim)` / `nn.Linear(pdim, 2*ch)` require the parameter
  feature width to be `pdim` and the batches to agree (lines 147-178).
* `upsample`: `F.interpolate(scale_factor=2)` doubles H and W, optionally
  followed by a channel-preserving 3×3 convolution (lines 227-231).
* `downsample`: stride-2 3×3 convolution, or `nn.AvgPool2d(2, 2)` whose
  output size is `(h - 2) / 2 + 1` (lines 239-245).
* `gnorm`: `nn.GroupNorm(32, ch)` checks at runtime only that the input has
  `ch` channels.
-/
def applyLayer (pf : ℕ × ℕ) (embD : ℕ) : Layer → Shape4 → Option Shape4
  | .conv2d cin cout k s p, x => conv2dShape cin cout k s p x
  | .resblock cin cout tch, x =>
      if tch = embD then
        (conv2dShape cin cout 3 1 1 x).bind (conv2dShape cout cout 3 1 1)
      else none
  | .attn ch heads, x =>
      if x.c = ch ∧ heads ∣ ch ∧ 1 ≤ x.h ∧ 1 ≤ x.w then some x else none
  | .crossattn ch pdim heads, x =>
      if x.c = ch ∧ pdim = pf.2 ∧ x.n = pf.1 ∧ heads ∣ ch ∧ 1 ≤ x.h ∧ 1 ≤ x.w then
        some x
      else none
  | .upsample ch useConv, x =>
      if useConv then conv2dShape ch ch 3 1 1 ⟨x.n, x.c, 2 * x.h, 2 * x.w⟩
      else some ⟨x.n, x.c, 2 * x.h, 2 * x.w⟩
  | .downsample ch useConv, x =>
      if useConv then conv2dShape ch ch 3 2 1 x
      else
        if 2 ≤ x.h ∧ 2 ≤ x.w then
          some ⟨x.n, x.c, (x.h - 2) / 2 + 1, (x.w - 2) / 2 + 1⟩
        else none
  | .gnorm ch, x => if x.c = ch then some x else none

/--
Run a `TimestepEmbedSequential` (lines 43-57): apply the member layers in
order; every layer receives the signal subset it consumes (the dispatch by
`isinstance` does not affect shapes beyond `applyLayer`'s arguments).
-/
def runLayers (pf : ℕ × ℕ) (embD : ℕ) : List Layer → Shape4 → Option Shape4
  | [], x => some x
  | l :: ls, x =>
      match applyLayer pf embD l x with
      | none => none
      | some x1 => runLayers pf embD ls x1

/--
`torch.cat([h, hs.pop()], dim=1)` (line 405): requires equal batch and
spatial sizes; channel counts add.
-/
def catChannels (a b : Shape4) : Option Shape4 :=
  if a.n = b.n ∧ a.h = b.h ∧ a.w = b.w then some ⟨a.n, a.c + b.c, a.h, a.w⟩ else none

/--
Down stage of `UNet.forward` (lines 395-398): run each down block in order
and push its output on the skip stack `hs`.  The stack is held with its top
at the head (Python appends to and pops from the tail of a list; this is the
same LIFO discipline).
-/
def runDownStages (pf : ℕ × ℕ) (embD : ℕ) :
    List (List Layer) → Shape4 → List Shape4 → Option (Shape4 × List Shape4)
  | [], x, hs => some (x, hs)
  | b :: bs, x, hs =>
      match runLayers pf embD b x with
      | none => none
      | some x1 => runDownStages pf embD bs x1 (x1 :: hs)

/--
Up stage of `UNet.forward` (lines 403-406): for each up block, pop the skip
stack (`hs.pop()` raises `IndexError` on an empty list, modelled as failure),
concatenate along the channel axis and run the block.  Returns the final
shape, the remaining stack, and the chronological list of popped shapes.
-/
def runUpStages (pf : ℕ × ℕ) (embD : ℕ) :
    List (List Layer) → Shape4 → List Shape4 → Option (Shape4 × List Shape4 × List Shape4)
  | [], x, hs => some (x, hs, [])
  | _ :: _, _, [] => none
  | b :: bs, x, top :: hs =>
      match catChannels x top with
      | none => none
      | some x1 =>
          match runLayers pf embD b x1 with
          | none => none
          | some x2 =>
              match runUpStages pf embD bs x2 hs with
              | none => none
              | some (xF, hsF, popped) => some (xF, hsF, top :: popped)

/-- Construction arguments of `UNet.__init__` (lines 250-264). -/
structure UNetCfg where
  in_channels : ℕ
  out_channels : ℕ
  model_channels : ℕ
  param_dim : ℕ
  param_hidden_dim : ℕ
  num_res_blocks : ℕ
  attention_resolutions : List ℕ
  channel_mult : List ℕ
  conv_resample : Bool
  num_heads : ℕ
  use_cross_attention : Bool
  deriving DecidableEq, Repr

/--
Attention layers appended after a residual block when the current
downsampling factor `ds` is listed in `attention_resolutions`
(lines 310-316 for the encoder; lines 352-358, identical, for the decoder).
-/
def attnLayers (cfg : UNetCfg) (ds ch : ℕ) : List Layer :=
  if ds ∈ cfg.attention_resolutions then
    Layer.attn ch cfg.num_heads ::
      (if cfg.use_cross_attention then
        [Layer.crossattn ch cfg.param_hidden_dim cfg.num_heads]
      else [])
  else []

/--
Inner encoder loop `for _ in range(num_res_blocks)` (lines 305-319) for one
multiplier `mult`: each iteration appends the stage
`ResidualBlock(ch, mult*model_channels) [+ attention]` to `down_blocks`, sets
`ch = mult * model_channels` and records `ch` in `down_block_chans`.
Returns (stages in order, recorded channels in push order, final `ch`).
-/
def downResBlocks (cfg : UNetCfg) (mult : ℕ) : ℕ → ℕ → ℕ → List (List Layer) × List ℕ × ℕ
  | 0, ch, _ => ([], [], ch)
  | n + 1, ch, ds =>
      let ch1 := mult * cfg.model_channels
      let stage := Layer.resblock ch ch1 (cfg.model_channels * 4) :: attnLayers cfg ds ch1
      let r := downResBlocks cfg mult n ch1 ds
      (stage :: r.1, ch1 :: r.2.1, r.2.2)

/--
Outer encoder loop `for level, mult in enumerate(channel_mult)`
(lines 304-323).  After the residual stages of a level that is not the last
(`level != len(channel_mult) - 1` ⟺ the remaining multiplier list is
nonempty), a `Downsample(ch)` stage is appended, `ch` is recorded again and
`ds` doubles.  Returns (stages, recorded channels in push order, `ch`, `ds`).
-/
def downLevels (cfg : UNetCfg) : List ℕ → ℕ → ℕ → List (List Layer) × List ℕ × ℕ × ℕ
  | [], ch, ds => ([], [], ch, ds)
  | mult :: rest, ch, ds =>
      let r1 := downResBlocks cfg mult cfg.num_res_blocks ch ds
      if rest.isEmpty then (r1.1, r1.2.1, r1.2.2, ds)
      else
        let r2 := downLevels cfg rest r1.2.2 (ds * 2)
        (r1.1 ++ [Layer.downsample r1.2.2 cfg.conv_resample] :: r2.1,
         r1.2.1 ++ r1.2.2 :: r2.2.1, r2.2.2.1, r2.2.2.2)

/--
Full encoder assembly (lines 298-323): `down_blocks` starts with a single
`Conv2d(in_channels, model_channels, 3, padding=1)` stage and
`down_block_chans = [model_channels]`, `ch = model_channels`, `ds = 1`;
then the levels loop runs.  Returns (stages, pushed channels, `ch`, `ds`).
-/
def downResult (cfg : UNetCfg) : List (List Layer) × List ℕ × ℕ × ℕ :=
  let r := downLevels cfg cfg.channel_mult cfg.model_channels 1
  ([Layer.conv2d cfg.in_channels cfg.model_channels 3 1 1] :: r.1,
   cfg.model_channels :: r.2.1, r.2.2.1, r.2.2.2)

/--
Middle block (lines 326-337): `ResidualBlock(ch, ch)`, `AttentionBlock(ch)`,
optionally `CrossModalAttentionBlock(ch, param_hidden_dim)`, then
`ResidualBlock(ch, ch)`.
-/
def middleBlock (cfg : UNetCfg) (ch : ℕ) : List Layer :=
  [Layer.resblock ch ch (cfg.model_channels * 4), Layer.attn ch cfg.num_heads] ++
    (if cfg.use_cross_attention then
      [Layer.crossattn ch cfg.param_hidden_dim cfg.num_heads]
    else []) ++
    [Layer.resblock ch ch (cfg.model_channels * 4)]

/--
Inner decoder loop `for i in range(num_res_blocks + 1)` (lines 342-363) for
one multiplier `mult`.  The argument counts the remaining repeats, so the
last repeat (`i == num_res_blocks`) is the call with one repeat left.
Each repeat pops `down_block_chans` (`headD 0`: Python would raise on an
empty list, which never happens — see the stack accounting theorems),
appends `ResidualBlock(ch + popped, model_channels * mult) [+ attention]`,
and on the last repeat of a level with `level != 0` (`lvlPos = true`) also
appends `Upsample(ch)` and halves `ds`.
Returns (stages, final `ch`, final `ds`, remaining channel stack).
-/
def upResBlocks (cfg : UNetCfg) (mult : ℕ) (lvlPos : Bool) :
    ℕ → ℕ → ℕ → List ℕ → List (List Layer) × ℕ × ℕ × List ℕ
  | 0, ch, ds, stk => ([], ch, ds, stk)
  | n + 1, ch, ds, stk =>
      let popped := stk.headD 0
      let ch1 := cfg.model_channels * mult
      let stage0 := Layer.resblock (ch + popped) ch1 (cfg.model_channels * 4) ::
        attnLayers cfg ds ch1
      let sd : List Layer × ℕ :=
        if lvlPos ∧ n = 0 then (stage0 ++ [Layer.upsample ch1 cfg.conv_resample], ds / 2)
        else (stage0, ds)
      let r := upResBlocks cfg mult lvlPos n ch1 sd.2 stk.tail
      (sd.1 :: r.1, r.2.1, r.2.2.1, r.2.2.2)

/--
Outer decoder loop `for level, mult in list(enumerate(channel_mult))[::-1]`
(lines 341-363), modelled as recursion over the reversed multiplier list.
The element at the tail of the reversed list has original level index 0, so
`level != 0` ⟺ the remaining reversed list is nonempty.
-/
def upLevels (cfg : UNetCfg) : List ℕ → ℕ → ℕ → List ℕ → List (List Layer) × ℕ × ℕ × List ℕ
  | [], ch, ds, stk => ([], ch, ds, stk)
  | mult :: rms, ch, ds, stk =>
      let r1 := upResBlocks cfg mult (!rms.isEmpty) (cfg.num_res_blocks + 1) ch ds stk
      let r2 := upLevels cfg rms r1.2.1 r1.2.2.1 r1.2.2.2
      (r1.1 ++ r2.1, r2.2.1, r2.2.2.1, r2.2.2.2)

/--
Decoder assembly as performed after the encoder and middle block
(lines 339-363): the decoder starts from the encoder's final `ch` and `ds`
and consumes `down_block_chans` from its tail (so the pop-order view is the
reversed push-order list).
-/
def upResult (cfg : UNetCfg) : List (List Layer) × ℕ × ℕ × List ℕ :=
  let d := downResult cfg
  upLevels cfg cfg.channel_mult.reverse d.2.2.1 d.2.2.2 d.2.1.reverse

/--
Image output head (lines 368-372): `norm_layer(ch)` is declared with the
decoder's final channel count `chF`, but the convolution is declared
`Conv2d(model_channels, out_channels, 3, padding=1)` — its input channel
count is fixed to `model_channels` (the `SiLU` in between is shape-neutral).
-/
def imgOutLayers (cfg : UNetCfg) (chF : ℕ) : List Layer :=
  [Layer.gnorm chF, Layer.conv2d cfg.model_channels cfg.out_channels 3 1 1]

/-- `nn.Linear(inF, outF)` on a rank-2 input `(batch, features)`. -/
def linearShape (inF outF : ℕ) (v : ℕ × ℕ) : Option (ℕ × ℕ) :=
  if v.2 = inF then some (v.1, outF) else none

/--
Shape of `ParameterEncoder(param_dim, param_hidden_dim, param_hidden_dim,
model_channels*4).forward(params, emb)` (lines 182-216): `input_proj =
Linear(param_dim, hidden)` requires the parameter width `pd = param_dim`;
the time path `Linear(model_channels*4, hidden)` requires the embedding
width `embD = model_channels * 4`; the residual MLP layers and `out_proj =
Linear(hidden, param_hidden_dim)` give a `(n, param_hidden_dim)` result.
-/
def paramEncoderShape (cfg : UNetCfg) (n pd embD : ℕ) : Option (ℕ × ℕ) :=
  if pd = cfg.param_dim ∧ embD = cfg.model_channels * 4 then
    some (n, cfg.param_hidden_dim)
  else none

/--
Intermediate data of one `UNet.forward` call: decoder output `img`, the skip
stack `hsMid` right after the down stage (top first), the stack `hsEnd`
left after the up stage, the chronological list `popped` of popped shapes,
and the parameter-feature shape `pfv`.
-/
structure FwdTrace where
  img : Shape4
  hsMid : List Shape4
  hsEnd : List Shape4
  popped : List Shape4
  pfv : ℕ × ℕ
  deriving DecidableEq, Repr

/--
`UNet.forward` (lines 377-412) up to, but not including, the output heads:
time embedding `emb` of width `model_channels * 4` (the
`timestep_embedding(·, model_channels)` output is `(N, model_channels)` and
`time_embed` maps it to `(N, model_channels*4)`); parameter features
computed once; down stage pushing each output on `hs`; middle block; up
stage popping `hs`.  The input `x` carries the batch used for `timesteps`
and `params` as well (the claims quantify over one shared batch size `N`);
`pd` is the feature width of `params`.
-/
def unetForwardPre (cfg : UNetCfg) (x : Shape4) (pd : ℕ) : Option FwdTrace :=
  (paramEncoderShape cfg x.n pd (cfg.model_channels * 4)).bind fun pf =>
    (runDownStages pf (cfg.model_channels * 4) (downResult cfg).1 x []).bind fun dres =>
      (runLayers pf (cfg.model_channels * 4)
          (middleBlock cfg (downResult cfg).2.2.1) dres.1).bind fun h2 =>
        (runUpStages pf (cfg.model_channels * 4) (upResult cfg).1 h2 dres.2).map fun ures =>
          ⟨ures.1, dres.2, ures.2.1, ures.2.2, pf⟩

/--
Full `UNet.forward` (lines 377-412): after the encoder/decoder pass, apply
`img_out` (declared with the decoder's final construction channel count in
its norm and `model_channels` in its convolution) and then
`param_out = Linear(param_hidden_dim, param_dim)` to the parameter features.
-/
def unetForwardFull (cfg : UNetCfg) (x : Shape4) (pd : ℕ) :
    Option ((Shape4 × (ℕ × ℕ)) × FwdTrace) :=
  (unetForwardPre cfg x pd).bind fun tr =>
    (runLayers tr.pfv (cfg.model_channels * 4)
        (imgOutLayers cfg (upResult cfg).2.1) tr.img).bind fun io =>
      (linearShape cfg.param_hidden_dim cfg.param_dim tr.pfv).map fun po => ((io, po), tr)

/-- The pair returned by `UNet.forward`: image output shape and parameter output shape. -/
def unetForwardShape (cfg : UNetCfg) (x : Shape4) (pd : ℕ) : Option (Shape4 × (ℕ × ℕ)) :=
  (unetForwardFull cfg x pd).map (·.1)

/-- Construction arguments of `UNet_Energy.__init__` (lines 417-433). -/
structure UNetEnergyCfg where
  in_channels : ℕ
  out_channels : ℕ
  model_channels : ℕ
  param_dim : ℕ
  param_hidden_dim : ℕ
  prop_dim : ℕ
  prop_hidden_dim : ℕ
  num_res_blocks : ℕ
  attention_resolutions : List ℕ
  channel_mult : List ℕ
  conv_resample : Bool
  num_heads : ℕ
  use_cross_attention : Bool
  deriving DecidableEq, Repr

/--
`UNet_Energy.__init__` duplicates the encoder and middle-block assembly of
`UNet.__init__` verbatim (lines 449-507 mirror lines 279-337); the shared
construction state is captured by this projection.
-/
def UNetEnergyCfg.base (e : UNetEnergyCfg) : UNetCfg :=
  { in_channels := e.in_channels, out_channels := e.out_channels,
    model_channels := e.model_channels, param_dim := e.param_dim,
    param_hidden_dim := e.param_hidden_dim, num_res_blocks := e.num_res_blocks,
    attention_resolutions := e.attention_resolutions, channel_mult := e.channel_mult,
    conv_resample := e.conv_resample, num_heads := e.num_heads,
    use_cross_attention := e.use_cross_attention }

/--
`UNet_Energy.property_predictor` (lines 510-516):
`nn.AdaptiveAvgPool2d(1)` (needs a nonempty spatial extent, output `(N,C,1,1)`),
`nn.Flatten()` (→ `(N, C)`), `nn.Linear(ch, prop_hidden_dim)` (requires the
input feature count to equal the declared `ch`), `SiLU`, and
`nn.Linear(prop_hidden_dim, prop_dim)` (→ `(N, prop_dim)`).
-/
def propHeadShape (e : UNetEnergyCfg) (declaredIn : ℕ) (s : Shape4) : Option (ℕ × ℕ) :=
  if 1 ≤ s.h ∧ 1 ≤ s.w ∧ s.c = declaredIn then some (s.n, e.prop_dim) else none

/--
`UNet_Energy.forward(x, params, prop, timesteps)` (lines 518-544) at shape
level: the skip stack `hs` is filled during the down stage but never popped
(there is no decoder); the middle-block output goes straight to
`property_predictor`, whose first linear layer was declared with the
encoder's final `ch`.  The `prop` argument does not occur in the body (see
the value-level model for that fact).
-/
def energyForwardShape (e : UNetEnergyCfg) (x : Shape4) (pd : ℕ) : Option (ℕ × ℕ) :=
  (paramEncoderShape e.base x.n pd (e.base.model_channels * 4)).bind fun pf =>
    -- the skip stack dres.2 is collected but never consumed (no decoder)
    (runDownStages pf (e.base.model_channels * 4) (downResult e.base).1 x []).bind fun dres =>
      (runLayers pf (e.base.model_channels * 4)
          (middleBlock e.base (downResult e.base).2.2.1) dres.1).bind fun h2 =>
        propHeadShape e (downResult e.base).2.2.1 h2

/-!
### Value-level functional skeleton

`UNet.forward` and `UNet_Energy.forward` as data-flow over opaque block
functions: the tensors, embeddings and learned blocks are abstract, and the
definitions record exactly which values each output is computed from.
-/

/--
The callable pieces of a constructed `UNet`, with abstract value types
`Img` (rank-4 tensors), `Emb` (time embeddings), `PF` (parameter features),
`Par` (parameter vectors) and `TS` (timestep batches).  Each down/middle/up
block is a `TimestepEmbedSequential`, taking the image, the time embedding
and the parameter features (lines 43-57).
-/
structure UNetModel (Img Emb PF Par TS : Type) where
  timestepEmb : TS → Emb
  time_embed : Emb → Emb
  param_encoder : Par → Emb → PF
  down_blocks : List (Img → Emb → PF → Img)
  middle_block : Img → Emb → PF → Img
  up_blocks : List (Img → Emb → PF → Img)
  cat : Img → Img → Img
  img_out : Img → Img
  param_out : PF → Par

/-- Down-stage loop of `UNet.forward` (lines 395-398) over abstract values. -/
def downPassV {Img Emb PF : Type} (emb : Emb) (pf : PF) :
    List (Img → Emb → PF → Img) → Img → List Img → Img × List Img
  | [], h, hs => (h, hs)
  | m :: ms, h, hs => downPassV emb pf ms (m h emb pf) (m h emb pf :: hs)

/--
Up-stage loop of `UNet.forward` (lines 403-406) over abstract values:
`hs.pop()` on an empty stack raises, modelled as `none`.
-/
def upPassV {Img Emb PF : Type} (emb : Emb) (pf : PF) (cat : Img → Img → Img) :
    List (Img → Emb → PF → Img) → Img → List Img → Option Img
  | [], h, _ => some h
  | _ :: _, _, [] => none
  | m :: ms, h, top :: hs => upPassV emb pf cat ms (m (cat h top) emb pf) hs

/--
`UNet.forward` (lines 377-412) over abstract values: compute the time
embedding, compute the parameter features once, run the down stage pushing
on `hs`, the middle block, the up stage popping `hs`, then return
`(img_out h, param_out param_features)`.
-/
def UNetModel.forward {Img Emb PF Par TS : Type} (M : UNetModel Img Emb PF Par TS)
    (x : Img) (params : Par) (timesteps : TS) : Option (Img × Par) :=
  let emb := M.time_embed (M.timestepEmb timesteps)
  let param_features := M.param_encoder params emb
  let dn := downPassV emb param_features M.down_blocks x []
  let h := M.middle_block dn.1 emb param_features
  (upPassV emb param_features M.cat M.up_blocks h dn.2).map
    (fun hF => (M.img_out hF, M.param_out param_features))

/--
The callable pieces of a constructed `UNet_Energy`; `Pr` is the type of the
`prop` argument, `Out` the property-prediction output type.
-/
structure UNetEnergyModel (Img Emb PF Par Pr Out TS : Type) where
  timestepEmb : TS → Emb
  time_embed : Emb → Emb
  param_encoder : Par → Emb → PF
  down_blocks : List (Img → Emb → PF → Img)
  middle_block : Img → Emb → PF → Img
  property_predictor : Img → Out

/--
`UNet_Energy.forward(x, params, prop, timesteps)` (lines 518-544) over
abstract values: identical to the joint model's encoder pass; the skip
stack is collected and discarded; `prop` does not occur in the body; the
result is `property_predictor` applied to the middle-block output.
-/
def UNetEnergyModel.forward {Img Emb PF Par Pr Out TS : Type}
    (M : UNetEnergyModel Img Emb PF Par Pr Out TS)
    (x : Img) (params : Par) (_prop : Pr) (timesteps : TS) : Out :=
  let emb := M.time_embed (M.timestepEmb timesteps)
  let param_features := M.param_encoder params emb
  let dn := downPassV emb param_features M.down_blocks x []
  let h := M.middle_block dn.1 emb param_features
  M.property_predictor h

/-!
### Real-valued models: `timestep_embedding` and the cross-modal softmax
-/

/--
One row of `timestep_embedding(timesteps, dim, max_period)` (lines 10-27)
for the batch element with timestep `t`:
`half = dim // 2`; `freqs = exp(-log(max_period) * arange(half) / half)`;
`args = t * freqs`; the row is `cat([cos(args), sin(args)])`, plus one zero
entry when `dim` is odd.
-/
noncomputable def timestep_embedding_row (t : ℝ) (dim : ℕ) (maxPeriod : ℝ) : List ℝ :=
  let half := dim / 2
  let freqs := (List.range half).map
    (fun i : ℕ => Real.exp (-Real.log maxPeriod * (i : ℝ) / (half : ℝ)))
  let args := freqs.map (fun f => t * f)
  (args.map Real.cos ++ args.map Real.sin) ++ (if dim % 2 = 1 then [0] else [])

/-- `timestep_embedding` on a batch: one row per timestep. -/
noncomputable def timestep_embedding (ts : List ℝ) (dim : ℕ) (maxPeriod : ℝ) :
    List (List ℝ) :=
  ts.map (fun t => timestep_embedding_row t dim maxPeriod)

/-- The frequency `freq_i = exp(-ln(max_period) * i / half)` with `half = dim // 2`. -/
noncomputable def tsFreq (dim : ℕ) (maxPeriod : ℝ) (i : ℕ) : ℝ :=
  Real.exp (-Real.log maxPeriod * (i : ℝ) / ((dim / 2 : ℕ) : ℝ))

/--
Attention logits of `CrossModalAttentionBlock.forward` (lines 168-170) for
one batch element and one head: with `chn = C // num_heads` channels per
head, query map `q : channel → spatial position → ℝ`, single key
`k : channel → ℝ` and `scale = 1/sqrt(sqrt(chn))`, the logit at spatial
position `t` is `einsum("bct,bcs->bts", q*scale, k*scale)` with a singleton
`s` axis: `∑ c, (q c t * scale) * (k c * scale)`.
-/
noncomputable def cmLogits {chn hw : ℕ} (scale : ℝ) (q : Fin chn → Fin hw → ℝ)
    (k : Fin chn → ℝ) (t : Fin hw) : ℝ :=
  ∑ c : Fin chn, q c t * scale * (k c * scale)

/--
`attn.softmax(dim=1)` on the `[B*nh, H*W, 1]` logit tensor (line 171):
dimension 1 is the spatial axis of length `H*W`, so each weight is
normalized by the sum of exponentials over all spatial positions ( the key
axis has length 1 and is untouched).
-/
noncomputable def softmaxSpatial {hw : ℕ} (logits : Fin hw → ℝ) (t : Fin hw) : ℝ :=
  Real.exp (logits t) / ∑ s : Fin hw, Real.exp (logits s)

/-- The attention weights of `CrossModalAttentionBlock.forward`. -/
noncomputable def cmAttnWeights {chn hw : ℕ} (scale : ℝ) (q : Fin chn → Fin hw → ℝ)
    (k : Fin chn → ℝ) : Fin hw → ℝ :=
  softmaxSpatial (cmLogits scale q k)

/--
`h = einsum("bts,bcs->bct", attn, v)` (line 174) with a singleton `s` axis:
the output at channel `c`, position `t` is `attn t * v c`.
-/
noncomputable def cmOutput {chn hw : ℕ} (scale : ℝ) (q : Fin chn → Fin hw → ℝ)
    (k v : Fin chn → ℝ) (c : Fin chn) (t : Fin hw) : ℝ :=
  cmAttnWeights scale q k t * v c

/-!
### Construction-time checks
-/

/--
Success of `AttentionBlock.__init__(channels, num_heads)` (lines 107-114):
`channels % num_heads` raises `ZeroDivisionError` when `num_heads = 0`;
otherwise `assert channels % num_heads == 0`; then
`norm_layer(channels) = nn.GroupNorm(32, channels)` raises `ValueError`
unless `channels % 32 == 0` (the two 1×1 convolutions have no
constructor-time constraint).
-/
def attentionBlockInit (channels num_heads : ℕ) : Bool :=
  if num_heads = 0 then false
  else if channels % num_heads ≠ 0 then false
  else if channels % 32 ≠ 0 then false
  else true

/--
Success of `CrossModalAttentionBlock.__init__(img_channels, param_dim,
num_heads)` (lines 131-145): the same `%`/assert on `img_channels` and
`num_heads`, then `norm_layer(img_channels)`; `nn.LayerNorm(param_dim)`,
the linear layers and the 1×1 convolutions add no constructor-time
constraint.
-/
def crossModalAttentionBlockInit (img_channels _param_dim num_heads : ℕ) : Bool :=
  if num_heads = 0 then false
  else if img_channels % num_heads ≠ 0 then false
  else if img_channels % 32 ≠ 0 then false
  else true

/--
The channel counts of every `norm_layer(c) = nn.GroupNorm(32, c)` created
inside one assembled layer: `ResidualBlock` normalizes its input and output
channels (lines 69-86), the attention blocks normalize their image channels
(lines 112, 137); `nn.LayerNorm` and the resampling/convolution layers
create no group norm.
-/
def layerNormChans : Layer → List ℕ
  | .resblock cin cout _ => [cin, cout]
  | .attn ch _ => [ch]
  | .crossattn ch _ _ => [ch]
  | .gnorm ch => [ch]
  | _ => []

/-- The `(channels, num_heads)` pair of every attention-block assertion in one layer. -/
def layerHeadChecks : Layer → List (ℕ × ℕ)
  | .attn ch heads => [(ch, heads)]
  | .crossattn ch _ heads => [(ch, heads)]
  | _ => []

/-- All group-norm channel counts created while constructing a `UNet`. -/
def unetNormChans (cfg : UNetCfg) : List ℕ :=
  ((downResult cfg).1.flatMap (fun st => st.flatMap layerNormChans)) ++
    (middleBlock cfg (downResult cfg).2.2.1).flatMap layerNormChans ++
    ((upResult cfg).1.flatMap (fun st => st.flatMap layerNormChans)) ++
    (imgOutLayers cfg (upResult cfg).2.1).flatMap layerNormChans

/-- All attention-block `(channels, num_heads)` assertions of a `UNet` construction. -/
def unetHeadChecks (cfg : UNetCfg) : List (ℕ × ℕ) :=
  ((downResult cfg).1.flatMap (fun st => st.flatMap layerHeadChecks)) ++
    (middleBlock cfg (downResult cfg).2.2.1).flatMap layerHeadChecks ++
    ((upResult cfg).1.flatMap (fun st => st.flatMap layerHeadChecks))

/--
`UNet(cfg)` constructs without raising iff every `nn.GroupNorm(32, c)` has
`32 ∣ c` and every attention block's `channels % num_heads == 0` check
passes (with `num_heads = 0` raising `ZeroDivisionError`); the remaining
constructors (`Linear`, `Conv2d`, `LayerNorm`, resamplers) accept all
configuration values.
-/
def unetConstructOK (cfg : UNetCfg) : Bool :=
  (unetNormChans cfg).all (fun c => c % 32 = 0) &&
    (unetHeadChecks cfg).all (fun p => p.2 ≠ 0 && p.1 % p.2 = 0)

/-- All group-norm channel counts created while constructing a `UNet_Energy`
(encoder and middle block only; `property_predictor` creates no norms). -/
def energyNormChans (e : UNetEnergyCfg) : List ℕ :=
  ((downResult e.base).1.flatMap (fun st => st.flatMap layerNormChans)) ++
    (middleBlock e.base (downResult e.base).2.2.1).flatMap layerNormChans

/-- Attention-block assertions of a `UNet_Energy` construction. -/
def energyHeadChecks (e : UNetEnergyCfg) : List (ℕ × ℕ) :=
  ((downResult e.base).1.flatMap (fun st => st.flatMap layerHeadChecks)) ++
    (middleBlock e.base (downResult e.base).2.2.1).flatMap layerHeadChecks

/-- Construction success of `UNet_Energy(cfg)`. -/
def energyConstructOK (e : UNetEnergyCfg) : Bool :=
  (energyNormChans e).all (fun c => c % 32 = 0) &&
    (energyHeadChecks e).all (fun p => p.2 ≠ 0 && p.1 % p.2 = 0)

/-!
### Derived descriptions of the construction used by the proofs
-/

/--
Channel count after one encoder level with multiplier `m`, entering with
`ch` channels: the level's residual blocks set `ch = mult * model_channels`,
except that with `num_res_blocks = 0` no block runs and `ch` is unchanged.
-/
def chAfterL (cfg : UNetCfg) (ch m : ℕ) : ℕ :=
  if cfg.num_res_blocks = 0 then ch else m * cfg.model_channels

/--
Channel count of the skip tensor lying directly below a decoder level's own
residual-stage pops: for the deepest remaining level it is the base channel
count `b` (the initial projection's push), otherwise the downsample push of
the next-finer level.
-/
def belowChB (cfg : UNetCfg) (b : ℕ) : List ℕ → ℕ
  | [] => b
  | m :: _ => chAfterL cfg b m

/--
The skip stack (top first) consumed by the decoder levels `rms` (the
reversed multiplier list, coarsest level first), entering at spatial size
`(h, w)`, where `b` is the channel count with which the encoder entered its
first level.  Each level contributes its `num_res_blocks` residual pushes
and one coarser push below them (a downsample push, or for the final level
the initial projection's push).
-/
def decStackB (cfg : UNetCfg) (N : ℕ) : List ℕ → ℕ → ℕ → ℕ → List Shape4
  | [], _, _, _ => []
  | m :: rms, b, h, w =>
      List.replicate cfg.num_res_blocks ⟨N, m * cfg.model_channels, h, w⟩ ++
        ⟨N, belowChB cfg b rms, h, w⟩ :: decStackB cfg N rms b (2 * h) (2 * w)

/--
The pushes produced by `downLevels cfg ms ch ds` (top of stack first) on an
input of spatial size `(s, t)`.
-/
def encPushes (cfg : UNetCfg) (N : ℕ) : List ℕ → ℕ → ℕ → ℕ → List Shape4
  | [], _, _, _ => []
  | m :: rest, ch, s, t =>
      let ch1 := chAfterL cfg ch m
      (if rest.isEmpty then []
       else encPushes cfg N rest ch1 (s / 2) (t / 2) ++ [⟨N, ch1, s / 2, t / 2⟩]) ++
        List.replicate cfg.num_res_blocks ⟨N, m * cfg.model_channels, s, t⟩

/-- Is a layer an `Upsample` operator? -/
def isUpsampleLayer : Layer → Bool
  | .upsample _ _ => true
  | _ => false

/-- Number of `Upsample` operators inside one stage. -/
def upsampleCount (st : List Layer) : ℕ := st.countP isUpsampleLayer

/--
Expected per-stage `Upsample` counts of the decoder, per level of the
reversed multiplier list: `num_res_blocks` repeats without an `Upsample`,
then one last repeat that carries an `Upsample` exactly on the levels whose
original index is nonzero (i.e. every level except the last one processed).
-/
def upPattern (cfg : UNetCfg) : List ℕ → List ℕ
  | [] => []
  | _ :: rms =>
      (List.replicate cfg.num_res_blocks 0 ++ [if rms.isEmpty then 0 else 1]) ++
        upPattern cfg rms

/--
A valid `UNet` configuration: at least one resolution stage, the first
channel multiplier equal to 1 (the constraint the fixed-width `img_out`
convolution silently assumes; spec §4.8/§9), head count dividing the base
width (the attention-block assertions), and base width divisible by the 32
groups of every `nn.GroupNorm`.
-/
def validUNetConfig (cfg : UNetCfg) : Prop :=
  cfg.channel_mult ≠ [] ∧ cfg.channel_mult.headD 0 = 1 ∧
    cfg.num_heads ∣ cfg.model_channels ∧ 32 ∣ cfg.model_channels

instance (cfg : UNetCfg) : Decidable (validUNetConfig cfg) := by
  unfold validUNetConfig
  infer_instance

/-- A valid `UNet_Energy` configuration (no output-head constraint: the
energy variant has no decoder and no `img_out`). -/
def validEnergyConfig (e : UNetEnergyCfg) : Prop :=
  e.channel_mult ≠ [] ∧ e.num_heads ∣ e.model_channels ∧ 32 ∣ e.model_channels

instance (e : UNetEnergyCfg) : Decidable (validEnergyConfig e) := by
  unfold validEnergyConfig
  infer_instance

/-- A small concrete configuration used to instantiate the theorems. -/
def tinyCfg : UNetCfg :=
  { in_channels := 1, out_channels := 1, model_channels := 32, param_dim := 4,
    param_hidden_dim := 16, num_res_blocks := 1, attention_resolutions := [2],
    channel_mult := [1, 2], conv_resample := true, num_heads := 4,
    use_cross_attention := true }

/-- `tinyCfg` with `channel_mult[0] = 2`: the image head's declared and actual
input widths disagree. -/
def tinyCfgMult2 : UNetCfg := { tinyCfg with channel_mult := [2, 2] }

/-- `tinyCfg` with an empty `channel_mult`: zero resolution stages. -/
def tinyCfgNoStage : UNetCfg := { tinyCfg with channel_mult := [] }

/-- A small concrete energy-variant configuration. -/
def tinyEnergyCfg : UNetEnergyCfg :=
  { in_channels := 1, out_channels := 1, model_channels := 32, param_dim := 4,
    param_hidden_dim := 16, prop_dim := 1, prop_hidden_dim := 8,
    num_res_blocks := 1, attention_resolutions := [2], channel_mult := [1, 2],
    conv_resample := true, num_heads := 4, use_cross_attention := true }

/-!
### Basic shape lemmas for single layers and layer lists
-/

theorem conv2dShape_k3p1 (cin cout n c h w : ℕ) (hc : c = cin) (hh : 1 ≤ h) (hw : 1 ≤ w) :
    conv2dShape cin cout 3 1 1 ⟨n, c, h, w⟩ = some ⟨n, cout, h, w⟩ := by
  simp only [conv2dShape]
  rw [if_pos ⟨hc, by omega, by omega⟩]
  have e1 : (h + 2 * 1 - 3) / 1 + 1 = h := by omega
  have e2 : (w + 2 * 1 - 3) / 1 + 1 = w := by omega
  rw [e1, e2]

theorem conv2dShape_k3s2 (cin cout n c t u : ℕ) (hc : c = cin) (ht : 1 ≤ t) (hu : 1 ≤ u) :
    conv2dShape cin cout 3 2 1 ⟨n, c, 2 * t, 2 * u⟩ = some ⟨n, cout, t, u⟩ := by
  simp only [conv2dShape]
  rw [if_pos ⟨hc, by omega, by omega⟩]
  have e1 : (2 * t + 2 * 1 - 3) / 2 + 1 = t := by omega
  have e2 : (2 * u + 2 * 1 - 3) / 2 + 1 = u := by omega
  rw [e1, e2]

theorem applyLayer_resblock (pf : ℕ × ℕ) (embD cin cout n c h w : ℕ)
    (hc : c = cin) (hh : 1 ≤ h) (hw : 1 ≤ w) :
    applyLayer pf embD (.resblock cin cout embD) ⟨n, c, h, w⟩ = some ⟨n, cout, h, w⟩ := by
  simp only [applyLayer, if_true, eq_self_iff_true]
  rw [conv2dShape_k3p1 cin cout n c h w hc hh hw, Option.some_bind]
  exact conv2dShape_k3p1 cout cout n cout h w rfl hh hw

theorem applyLayer_attn (pf : ℕ × ℕ) (embD ch heads n c h w : ℕ)
    (hc : c = ch) (hd : heads ∣ ch) (hh : 1 ≤ h) (hw : 1 ≤ w) :
    applyLayer pf embD (.attn ch heads) ⟨n, c, h, w⟩ = some ⟨n, c, h, w⟩ := by
  subst hc
  simp [applyLayer, hd, hh, hw]

theorem applyLayer_crossattn (embD ch heads N P h w : ℕ)
    (hd : heads ∣ ch) (hh : 1 ≤ h) (hw : 1 ≤ w) :
    applyLayer (N, P) embD (.crossattn ch P heads) ⟨N, ch, h, w⟩ = some ⟨N, ch, h, w⟩ := by
  simp [applyLayer, hd, hh, hw]

theorem applyLayer_upsample (pf : ℕ × ℕ) (embD ch n c h w : ℕ) (uc : Bool)
    (hc : c = ch) (hh : 1 ≤ h) (hw : 1 ≤ w) :
    applyLayer pf embD (.upsample ch uc) ⟨n, c, h, w⟩ = some ⟨n, c, 2 * h, 2 * w⟩ := by
  subst hc
  simp only [applyLayer]
  cases uc with
  | false => simp
  | true =>
      simp only [if_true]
      exact conv2dShape_k3p1 c c n c (2 * h) (2 * w) rfl (by omega) (by omega)

theorem applyLayer_downsample (pf : ℕ × ℕ) (embD ch n c t u : ℕ) (uc : Bool)
    (hc : c = ch) (ht : 1 ≤ t) (hu : 1 ≤ u) :
    applyLayer pf embD (.downsample ch uc) ⟨n, c, 2 * t, 2 * u⟩ = some ⟨n, c, t, u⟩ := by
  subst hc
  simp only [applyLayer]
  cases uc with
  | true =>
      simp only [if_true]
      exact conv2dShape_k3s2 c c n c t u rfl ht hu
  | false =>
      simp only [Bool.false_eq_true, if_false]
      rw [if_pos ⟨by omega, by omega⟩]
      have e1 : (2 * t - 2) / 2 + 1 = t := by omega
      have e2 : (2 * u - 2) / 2 + 1 = u := by omega
      rw [e1, e2]

theorem runLayers_nil (pf : ℕ × ℕ) (embD : ℕ) (x : Shape4) :
    runLayers pf embD [] x = some x := rfl

theorem runLayers_cons (pf : ℕ × ℕ) (embD : ℕ) (l : Layer) (ls : List Layer) (x : Shape4) :
    runLayers pf embD (l :: ls) x = (applyLayer pf embD l x).bind (runLayers pf embD ls) := by
  cases h : applyLayer pf embD l x <;> simp [runLayers, h]

theorem runLayers_append (pf : ℕ × ℕ) (embD : ℕ) (la lb : List Layer) (x : Shape4) :
    runLayers pf embD (la ++ lb) x = (runLayers pf embD la x).bind (runLayers pf embD lb) := by
  induction la generalizing x with
  | nil => simp [runLayers_nil]
  | cons l ls ih =>
      rw [List.cons_append, runLayers_cons, runLayers_cons]
      cases applyLayer pf embD l x with
      | none => rfl
      | some x1 => simp only [Option.some_bind]; exact ih x1

/-- Running the optional attention layers at any resolution preserves the shape. -/
theorem runLayers_attnLayers (cfg : UNetCfg) (embD ds ch N h w : ℕ)
    (hd : cfg.num_heads ∣ ch) (hh : 1 ≤ h) (hw : 1 ≤ w) :
    runLayers (N, cfg.param_hidden_dim) embD (attnLayers cfg ds ch) ⟨N, ch, h, w⟩ =
      some ⟨N, ch, h, w⟩ := by
  unfold attnLayers
  by_cases hds : ds ∈ cfg.attention_resolutions
  · rw [if_pos hds, runLayers_cons,
      applyLayer_attn (N, cfg.param_hidden_dim) embD ch cfg.num_heads N ch h w rfl hd hh hw]
    by_cases hx : cfg.use_cross_attention
    · rw [if_pos hx]
      simp only [Option.some_bind]
      rw [runLayers_cons, applyLayer_crossattn embD ch cfg.num_heads N
        cfg.param_hidden_dim h w hd hh hw]
      rfl
    · rw [if_neg hx]; rfl
  · rw [if_neg hds]; rfl

/-- Running one encoder stage `ResidualBlock(cin → cout) [+ attention]`. -/
theorem runLayers_resStage (cfg : UNetCfg) (ds cin cout N h w : ℕ)
    (hd : cfg.num_heads ∣ cout) (hh : 1 ≤ h) (hw : 1 ≤ w) :
    runLayers (N, cfg.param_hidden_dim) (cfg.model_channels * 4)
        (Layer.resblock cin cout (cfg.model_channels * 4) :: attnLayers cfg ds cout)
        ⟨N, cin, h, w⟩ = some ⟨N, cout, h, w⟩ := by
  rw [runLayers_cons, applyLayer_resblock (N, cfg.param_hidden_dim)
    (cfg.model_channels * 4) cin cout N cin h w rfl hh hw]
  simp only [Option.some_bind]
  exact runLayers_attnLayers cfg (cfg.model_channels * 4) ds cout N h w hd hh hw

/-- Running the middle block (lines 326-337) preserves the shape. -/
theorem runLayers_middle (cfg : UNetCfg) (ch N h w : ℕ)
    (hd : cfg.num_heads ∣ ch) (hh : 1 ≤ h) (hw : 1 ≤ w) :
    runLayers (N, cfg.param_hidden_dim) (cfg.model_channels * 4)
        (middleBlock cfg ch) ⟨N, ch, h, w⟩ = some ⟨N, ch, h, w⟩ := by
  unfold middleBlock
  rw [runLayers_append, runLayers_append]
  rw [runLayers_cons, applyLayer_resblock (N, cfg.param_hidden_dim)
    (cfg.model_channels * 4) ch ch N ch h w rfl hh hw]
  simp only [Option.some_bind]
  rw [runLayers_cons, applyLayer_attn (N, cfg.param_hidden_dim)
    (cfg.model_channels * 4) ch cfg.num_heads N ch h w rfl hd hh hw]
  simp only [Option.some_bind, runLayers_nil]
  by_cases hx : cfg.use_cross_attention
  · rw [if_pos hx, runLayers_cons, applyLayer_crossattn (cfg.model_channels * 4)
      ch cfg.num_heads N cfg.param_hidden_dim h w hd hh hw]
    simp only [Option.some_bind, runLayers_nil]
    rw [runLayers_cons, applyLayer_resblock (N, cfg.param_hidden_dim)
      (cfg.model_channels * 4) ch ch N ch h w rfl hh hw]
    rfl
  · rw [if_neg hx]
    simp only [runLayers_nil, Option.some_bind]
    rw [runLayers_cons, applyLayer_resblock (N, cfg.param_hidden_dim)
      (cfg.model_channels * 4) ch ch N ch h w rfl hh hw]
    rfl

/-!
### Composition lemmas for the forward folds
-/

theorem runDownStages_nil (pf : ℕ × ℕ) (embD : ℕ) (x : Shape4) (hs : List Shape4) :
    runDownStages pf embD [] x hs = some (x, hs) := rfl

theorem runDownStages_cons (pf : ℕ × ℕ) (embD : ℕ) (b : List Layer)
    (bs : List (List Layer)) (x : Shape4) (hs : List Shape4) :
    runDownStages pf embD (b :: bs) x hs =
      (runLayers pf embD b x).bind (fun x1 => runDownStages pf embD bs x1 (x1 :: hs)) := by
  cases h : runLayers pf embD b x <;> simp [runDownStages, h]

theorem runDownStages_append (pf : ℕ × ℕ) (embD : ℕ) (ba bb : List (List Layer))
    (x : Shape4) (hs : List Shape4) :
    runDownStages pf embD (ba ++ bb) x hs =
      (runDownStages pf embD ba x hs).bind (fun r => runDownStages pf embD bb r.1 r.2) := by
  induction ba generalizing x hs with
  | nil => simp [runDownStages_nil]
  | cons b bs ih =>
      rw [List.cons_append, runDownStages_cons, runDownStages_cons]
      cases runLayers pf embD b x with
      | none => rfl
      | some x1 => simp only [Option.some_bind]; exact ih x1 (x1 :: hs)

theorem runUpStages_nil (pf : ℕ × ℕ) (embD : ℕ) (x : Shape4) (hs : List Shape4) :
    runUpStages pf embD [] x hs = some (x, hs, []) := rfl

theorem runUpStages_cons (pf : ℕ × ℕ) (embD : ℕ) (b : List Layer) (bs : List (List Layer))
    (x top : Shape4) (hs : List Shape4) :
    runUpStages pf embD (b :: bs) x (top :: hs) =
      (catChannels x top).bind (fun x1 => (runLayers pf embD b x1).bind (fun x2 =>
        (runUpStages pf embD bs x2 hs).map (fun r => (r.1, r.2.1, top :: r.2.2)))) := by
  show (match catChannels x top with
    | none => none
    | some x1 =>
        match runLayers pf embD b x1 with
        | none => none
        | some x2 =>
            match runUpStages pf embD bs x2 hs with
            | none => none
            | some (xF, hsF, popped) => some (xF, hsF, top :: popped)) = _
  cases catChannels x top with
  | none => rfl
  | some x1 =>
      simp only [Option.some_bind]
      cases runLayers pf embD b x1 with
      | none => rfl
      | some x2 =>
          simp only [Option.some_bind]
          cases runUpStages pf embD bs x2 hs with
          | none => rfl
          | some r => rfl

theorem runUpStages_append (pf : ℕ × ℕ) (embD : ℕ) (ba bb : List (List Layer))
    (x : Shape4) (hs : List Shape4) :
    runUpStages pf embD (ba ++ bb) x hs =
      (runUpStages pf embD ba x hs).bind
        (fun r => (runUpStages pf embD bb r.1 r.2.1).map
          (fun r2 => (r2.1, r2.2.1, r.2.2 ++ r2.2.2))) := by
  induction ba generalizing x hs with
  | nil =>
      rw [List.nil_append, runUpStages_nil, Option.some_bind]
      cases h : runUpStages pf embD bb x hs with
      | none => simp [h]
      | some r2 => simp [h]
  | cons b bs ih =>
      cases hs with
      | nil => rfl
      | cons top hsT =>
          rw [List.cons_append]
          simp only [runUpStages]
          cases hcat : catChannels x top with
          | none => rfl
          | some x1 =>
              simp only []
              cases hrun : runLayers pf embD b x1 with
              | none => rfl
              | some x2 =>
                  simp only []
                  rw [ih x2 hsT]
                  cases h1 : runUpStages pf embD bs x2 hsT with
                  | none => rfl
                  | some r1 =>
                      simp only [Option.some_bind]
                      cases h2 : runUpStages pf embD bb r1.1 r1.2.1 with
                      | none => simp
                      | some r2 => simp

/-!
### Running the encoder
-/

theorem pow2_mul_div2 (k h : ℕ) (hk : 1 ≤ k) : 2 ^ k * h / 2 = 2 ^ (k - 1) * h := by
  have e : 2 ^ k = 2 * 2 ^ (k - 1) := by
    conv_lhs => rw [show k = k - 1 + 1 by omega]
    rw [pow_succ]; ring
  rw [e, mul_assoc, Nat.mul_div_cancel_left _ (by norm_num)]

theorem downResBlocks_chans (cfg : UNetCfg) (m : ℕ) :
    ∀ (n ch ds : ℕ),
      (downResBlocks cfg m n ch ds).2.1 = List.replicate n (m * cfg.model_channels) ∧
        (downResBlocks cfg m n ch ds).2.2 = if n = 0 then ch else m * cfg.model_channels := by
  intro n
  induction n with
  | zero => intro ch ds; exact ⟨rfl, rfl⟩
  | succ n ih =>
      intro ch ds
      have h := ih (m * cfg.model_channels) ds
      simp only [downResBlocks]
      refine ⟨by rw [h.1, List.replicate_succ], ?_⟩
      rw [h.2]
      by_cases hn : n = 0 <;> simp [hn]

theorem downResBlocks_run (cfg : UNetCfg) (N m : ℕ)
    (hd : cfg.num_heads ∣ m * cfg.model_channels) :
    ∀ (n ch ds h w : ℕ) (hs0 : List Shape4), 1 ≤ h → 1 ≤ w →
      runDownStages (N, cfg.param_hidden_dim) (cfg.model_channels * 4)
          (downResBlocks cfg m n ch ds).1 ⟨N, ch, h, w⟩ hs0
        = some (⟨N, (downResBlocks cfg m n ch ds).2.2, h, w⟩,
            List.replicate n ⟨N, m * cfg.model_channels, h, w⟩ ++ hs0) := by
  intro n
  induction n with
  | zero => intro ch ds h w hs0 hh hw; rfl
  | succ n ih =>
      intro ch ds h w hs0 hh hw
      simp only [downResBlocks]
      rw [runDownStages_cons, runLayers_resStage cfg ds ch (m * cfg.model_channels)
        N h w hd hh hw, Option.some_bind]
      rw [ih (m * cfg.model_channels) ds h w _ hh hw]
      rw [List.replicate_succ', List.append_assoc, List.singleton_append]

theorem runLayers_singleton (pf : ℕ × ℕ) (embD : ℕ) (l : Layer) (x : Shape4) :
    runLayers pf embD [l] x = applyLayer pf embD l x := by
  rw [runLayers_cons]
  cases applyLayer pf embD l x <;> rfl

/-- Structural unfolding of `downLevels` at a last level (no downsample appended). -/
theorem downLevels_one (cfg : UNetCfg) (m ch ds : ℕ) :
    downLevels cfg [m] ch ds =
      ((downResBlocks cfg m cfg.num_res_blocks ch ds).1,
        (downResBlocks cfg m cfg.num_res_blocks ch ds).2.1,
        (downResBlocks cfg m cfg.num_res_blocks ch ds).2.2, ds) := rfl

/-- Structural unfolding of `downLevels` at a non-last level. -/
theorem downLevels_cons2 (cfg : UNetCfg) (m m2 : ℕ) (rest2 : List ℕ) (ch ds : ℕ) :
    downLevels cfg (m :: m2 :: rest2) ch ds =
      ((downResBlocks cfg m cfg.num_res_blocks ch ds).1 ++
          [Layer.downsample (downResBlocks cfg m cfg.num_res_blocks ch ds).2.2
            cfg.conv_resample] ::
          (downLevels cfg (m2 :: rest2)
            (downResBlocks cfg m cfg.num_res_blocks ch ds).2.2 (ds * 2)).1,
        (downResBlocks cfg m cfg.num_res_blocks ch ds).2.1 ++
          (downResBlocks cfg m cfg.num_res_blocks ch ds).2.2 ::
          (downLevels cfg (m2 :: rest2)
            (downResBlocks cfg m cfg.num_res_blocks ch ds).2.2 (ds * 2)).2.1,
        (downLevels cfg (m2 :: rest2)
          (downResBlocks cfg m cfg.num_res_blocks ch ds).2.2 (ds * 2)).2.2.1,
        (downLevels cfg (m2 :: rest2)
          (downResBlocks cfg m cfg.num_res_blocks ch ds).2.2 (ds * 2)).2.2.2) := rfl

theorem encPushes_one (cfg : UNetCfg) (N m ch s t : ℕ) :
    encPushes cfg N [m] ch s t =
      List.replicate cfg.num_res_blocks ⟨N, m * cfg.model_channels, s, t⟩ := rfl

theorem encPushes_cons2 (cfg : UNetCfg) (N m m2 : ℕ) (rest2 : List ℕ) (ch s t : ℕ) :
    encPushes cfg N (m :: m2 :: rest2) ch s t =
      (encPushes cfg N (m2 :: rest2) (chAfterL cfg ch m) (s / 2) (t / 2) ++
          [⟨N, chAfterL cfg ch m, s / 2, t / 2⟩]) ++
        List.replicate cfg.num_res_blocks ⟨N, m * cfg.model_channels, s, t⟩ := rfl

theorem downLevels_ds (cfg : UNetCfg) :
    ∀ (ms : List ℕ) (ch ds : ℕ),
      (downLevels cfg ms ch ds).2.2.2 = ds * 2 ^ (ms.length - 1) := by
  intro ms
  induction ms with
  | nil => intro ch ds; simp [downLevels]
  | cons m rest ih =>
      intro ch ds
      cases rest with
      | nil => rw [downLevels_one]; simp
      | cons m2 rest2 =>
          rw [downLevels_cons2]
          show (downLevels cfg (m2 :: rest2) _ (ds * 2)).2.2.2 = _
          rw [ih _ (ds * 2)]
          have hl : (m :: m2 :: rest2).length - 1 = ((m2 :: rest2).length - 1) + 1 := by
            simp
          rw [hl, mul_assoc, ← pow_succ']

/--
Main encoder lemma: running the stages assembled by `downLevels cfg ms ch ds`
on an input of spatial size `2^(|ms|-1) * (h, w)` succeeds, ends at spatial
size `(h, w)` with the construction's final channel count, and pushes
exactly the stack described by `encPushes`; the construction's recorded
channels (in push order) match the channels of the pushed shapes.
-/
theorem downLevels_run (cfg : UNetCfg) (N : ℕ) :
    ∀ (ms : List ℕ) (ch ds h w : ℕ) (hs0 : List Shape4), 1 ≤ h → 1 ≤ w →
      (∀ m ∈ ms, cfg.num_heads ∣ m * cfg.model_channels) →
      runDownStages (N, cfg.param_hidden_dim) (cfg.model_channels * 4)
          (downLevels cfg ms ch ds).1
          ⟨N, ch, 2 ^ (ms.length - 1) * h, 2 ^ (ms.length - 1) * w⟩ hs0
        = some (⟨N, (downLevels cfg ms ch ds).2.2.1, h, w⟩,
            encPushes cfg N ms ch (2 ^ (ms.length - 1) * h) (2 ^ (ms.length - 1) * w) ++ hs0)
      ∧ (downLevels cfg ms ch ds).2.2.1 = ms.foldl (chAfterL cfg) ch
      ∧ (downLevels cfg ms ch ds).2.1.reverse
          = (encPushes cfg N ms ch (2 ^ (ms.length - 1) * h)
              (2 ^ (ms.length - 1) * w)).map (·.c) := by
  intro ms
  induction ms with
  | nil =>
      intro ch ds h w hs0 hh hw _
      refine ⟨?_, rfl, rfl⟩
      simp [downLevels, encPushes, runDownStages_nil]
  | cons m rest ih =>
      intro ch ds h w hs0 hh hw hheads
      have hdm : cfg.num_heads ∣ m * cfg.model_channels := hheads m (by simp)
      have hch1 : (downResBlocks cfg m cfg.num_res_blocks ch ds).2.2 = chAfterL cfg ch m := by
        rw [(downResBlocks_chans cfg m cfg.num_res_blocks ch ds).2, chAfterL]
      cases rest with
      | nil =>
          rw [downLevels_one]
          have hlen : ((m :: ([] : List ℕ)).length - 1) = 0 := by simp
          rw [hlen, pow_zero, one_mul, one_mul, encPushes_one]
          refine ⟨?_, ?_, ?_⟩
          · exact downResBlocks_run cfg N m hdm cfg.num_res_blocks ch ds h w hs0 hh hw
          · rw [hch1]; rfl
          · rw [(downResBlocks_chans cfg m cfg.num_res_blocks ch ds).1]
            simp [List.map_replicate]
      | cons m2 rest2 =>
          -- abbreviations
          have hk : 1 ≤ (m2 :: rest2).length := by simp
          have hlen : (m :: m2 :: rest2).length - 1 = (m2 :: rest2).length := by simp
          have hS2 : 2 ^ (m2 :: rest2).length * h / 2
              = 2 ^ ((m2 :: rest2).length - 1) * h := pow2_mul_div2 _ h hk
          have hT2 : 2 ^ (m2 :: rest2).length * w / 2
              = 2 ^ ((m2 :: rest2).length - 1) * w := pow2_mul_div2 _ w hk
          have hSsplit : 2 ^ (m2 :: rest2).length * h
              = 2 * (2 ^ ((m2 :: rest2).length - 1) * h) := by
            conv_lhs => rw [show (m2 :: rest2).length = ((m2 :: rest2).length - 1) + 1
              by omega]
            rw [pow_succ]; ring
          have hTsplit : 2 ^ (m2 :: rest2).length * w
              = 2 * (2 ^ ((m2 :: rest2).length - 1) * w) := by
            conv_lhs => rw [show (m2 :: rest2).length = ((m2 :: rest2).length - 1) + 1
              by omega]
            rw [pow_succ]; ring
          have hh' : 1 ≤ 2 ^ ((m2 :: rest2).length - 1) * h :=
            Nat.mul_pos (Nat.pos_pow_of_pos _ (by norm_num)) hh
          have hw' : 1 ≤ 2 ^ ((m2 :: rest2).length - 1) * w :=
            Nat.mul_pos (Nat.pos_pow_of_pos _ (by norm_num)) hw
          have ihr := ih (downResBlocks cfg m cfg.num_res_blocks ch ds).2.2 (ds * 2) h w
            (⟨N, (downResBlocks cfg m cfg.num_res_blocks ch ds).2.2,
                2 ^ ((m2 :: rest2).length - 1) * h, 2 ^ ((m2 :: rest2).length - 1) * w⟩ ::
              (List.replicate cfg.num_res_blocks
                ⟨N, m * cfg.model_channels, 2 ^ (m2 :: rest2).length * h,
                  2 ^ (m2 :: rest2).length * w⟩ ++ hs0))
            hh hw (fun m' hm' => hheads m' (by simp [hm']))
          rw [downLevels_cons2, hlen]
          refine ⟨?_, ?_, ?_⟩
          · rw [runDownStages_append]
            rw [downResBlocks_run cfg N m hdm cfg.num_res_blocks ch ds
              (2 ^ (m2 :: rest2).length * h) (2 ^ (m2 :: rest2).length * w) hs0
              (by omega) (by omega)]
            rw [Option.some_bind]
            rw [runDownStages_cons, runLayers_singleton]
            have happ : applyLayer (N, cfg.param_hidden_dim) (cfg.model_channels * 4)
                (Layer.downsample (downResBlocks cfg m cfg.num_res_blocks ch ds).2.2
                  cfg.conv_resample)
                ⟨N, (downResBlocks cfg m cfg.num_res_blocks ch ds).2.2,
                  2 ^ (m2 :: rest2).length * h, 2 ^ (m2 :: rest2).length * w⟩
                = some ⟨N, (downResBlocks cfg m cfg.num_res_blocks ch ds).2.2,
                    2 ^ ((m2 :: rest2).length - 1) * h,
                    2 ^ ((m2 :: rest2).length - 1) * w⟩ := by
              rw [hSsplit, hTsplit]
              exact applyLayer_downsample (N, cfg.param_hidden_dim) (cfg.model_channels * 4)
                (downResBlocks cfg m cfg.num_res_blocks ch ds).2.2 N
                (downResBlocks cfg m cfg.num_res_blocks ch ds).2.2
                (2 ^ ((m2 :: rest2).length - 1) * h) (2 ^ ((m2 :: rest2).length - 1) * w)
                cfg.conv_resample rfl hh' hw'
            rw [happ, Option.some_bind]
            rw [ihr.1]
            rw [encPushes_cons2, hch1, hS2, hT2]
            simp [List.append_assoc]
          · show (downLevels cfg (m2 :: rest2) _ (ds * 2)).2.2.1 = _
            rw [ihr.2.1, List.foldl_cons, hch1]
            rfl
          · show ((downResBlocks cfg m cfg.num_res_blocks ch ds).2.1 ++
                (downResBlocks cfg m cfg.num_res_blocks ch ds).2.2 ::
                (downLevels cfg (m2 :: rest2)
                  (downResBlocks cfg m cfg.num_res_blocks ch ds).2.2 (ds * 2)).2.1).reverse
              = _
            rw [List.reverse_append, List.reverse_cons,
              (downResBlocks_chans cfg m cfg.num_res_blocks ch ds).1, ihr.2.2]
            rw [encPushes_cons2, hch1, hS2, hT2]
            simp [List.map_replicate, List.append_assoc]

/-!
### Running the decoder
-/

theorem upResBlocks_zero (cfg : UNetCfg) (mult : ℕ) (lvlPos : Bool) (ch ds : ℕ)
    (stk : List ℕ) : upResBlocks cfg mult lvlPos 0 ch ds stk = ([], ch, ds, stk) := rfl

theorem upResBlocks_one_true (cfg : UNetCfg) (mult ch ds : ℕ) (stk : List ℕ) :
    upResBlocks cfg mult true 1 ch ds stk =
      ([(Layer.resblock (ch + stk.headD 0) (cfg.model_channels * mult)
            (cfg.model_channels * 4) :: attnLayers cfg ds (cfg.model_channels * mult)) ++
          [Layer.upsample (cfg.model_channels * mult) cfg.conv_resample]],
        cfg.model_channels * mult, ds / 2, stk.tail) := by
  simp [upResBlocks]

theorem upResBlocks_one_false (cfg : UNetCfg) (mult ch ds : ℕ) (stk : List ℕ) :
    upResBlocks cfg mult false 1 ch ds stk =
      ([Layer.resblock (ch + stk.headD 0) (cfg.model_channels * mult)
          (cfg.model_channels * 4) :: attnLayers cfg ds (cfg.model_channels * mult)],
        cfg.model_channels * mult, ds, stk.tail) := by
  simp [upResBlocks]

theorem upResBlocks_step (cfg : UNetCfg) (mult : ℕ) (lvlPos : Bool) (n ch ds : ℕ)
    (stk : List ℕ) (hn : n ≠ 0) :
    upResBlocks cfg mult lvlPos (n + 1) ch ds stk =
      ((Layer.resblock (ch + stk.headD 0) (cfg.model_channels * mult)
          (cfg.model_channels * 4) :: attnLayers cfg ds (cfg.model_channels * mult)) ::
          (upResBlocks cfg mult lvlPos n (cfg.model_channels * mult) ds stk.tail).1,
        (upResBlocks cfg mult lvlPos n (cfg.model_channels * mult) ds stk.tail).2.1,
        (upResBlocks cfg mult lvlPos n (cfg.model_channels * mult) ds stk.tail).2.2.1,
        (upResBlocks cfg mult lvlPos n (cfg.model_channels * mult) ds stk.tail).2.2.2) := by
  have hc : ¬((lvlPos : Prop) ∧ n = 0) := by simp [hn]
  simp [upResBlocks, hc]

theorem upLevels_nil (cfg : UNetCfg) (ch ds : ℕ) (stk : List ℕ) :
    upLevels cfg [] ch ds stk = ([], ch, ds, stk) := rfl

theorem upLevels_cons (cfg : UNetCfg) (m : ℕ) (rms : List ℕ) (ch ds : ℕ) (stk : List ℕ) :
    upLevels cfg (m :: rms) ch ds stk =
      ((upResBlocks cfg m (!rms.isEmpty) (cfg.num_res_blocks + 1) ch ds stk).1 ++
          (upLevels cfg rms
            (upResBlocks cfg m (!rms.isEmpty) (cfg.num_res_blocks + 1) ch ds stk).2.1
            (upResBlocks cfg m (!rms.isEmpty) (cfg.num_res_blocks + 1) ch ds stk).2.2.1
            (upResBlocks cfg m (!rms.isEmpty) (cfg.num_res_blocks + 1) ch ds stk).2.2.2).1,
        (upLevels cfg rms
          (upResBlocks cfg m (!rms.isEmpty) (cfg.num_res_blocks + 1) ch ds stk).2.1
          (upResBlocks cfg m (!rms.isEmpty) (cfg.num_res_blocks + 1) ch ds stk).2.2.1
          (upResBlocks cfg m (!rms.isEmpty) (cfg.num_res_blocks + 1) ch ds stk).2.2.2).2.1,
        (upLevels cfg rms
          (upResBlocks cfg m (!rms.isEmpty) (cfg.num_res_blocks + 1) ch ds stk).2.1
          (upResBlocks cfg m (!rms.isEmpty) (cfg.num_res_blocks + 1) ch ds stk).2.2.1
          (upResBlocks cfg m (!rms.isEmpty) (cfg.num_res_blocks + 1) ch ds stk).2.2.2).2.2.1,
        (upLevels cfg rms
          (upResBlocks cfg m (!rms.isEmpty) (cfg.num_res_blocks + 1) ch ds stk).2.1
          (upResBlocks cfg m (!rms.isEmpty) (cfg.num_res_blocks + 1) ch ds stk).2.2.1
          (upResBlocks cfg m (!rms.isEmpty) (cfg.num_res_blocks + 1) ch ds stk).2.2.2).2.2.2) := rfl

/-- `upLevels` on a single remaining level: original level index 0, so no upsample flag. -/
theorem upLevels_one (cfg : UNetCfg) (m ch ds : ℕ) (stk : List ℕ) :
    upLevels cfg [m] ch ds stk =
      ((upResBlocks cfg m false (cfg.num_res_blocks + 1) ch ds stk).1,
        (upResBlocks cfg m false (cfg.num_res_blocks + 1) ch ds stk).2.1,
        (upResBlocks cfg m false (cfg.num_res_blocks + 1) ch ds stk).2.2.1,
        (upResBlocks cfg m false (cfg.num_res_blocks + 1) ch ds stk).2.2.2) := by
  show ((upResBlocks cfg m false (cfg.num_res_blocks + 1) ch ds stk).1 ++ [],
    (upResBlocks cfg m false (cfg.num_res_blocks + 1) ch ds stk).2.1,
    (upResBlocks cfg m false (cfg.num_res_blocks + 1) ch ds stk).2.2.1,
    (upResBlocks cfg m false (cfg.num_res_blocks + 1) ch ds stk).2.2.2) = _
  rw [List.append_nil]

/-- `upLevels` on a level that is not the last-processed one: upsample flag set. -/
theorem upLevels_cons2 (cfg : UNetCfg) (m m2 : ℕ) (rms2 : List ℕ) (ch ds : ℕ)
    (stk : List ℕ) :
    upLevels cfg (m :: m2 :: rms2) ch ds stk =
      ((upResBlocks cfg m true (cfg.num_res_blocks + 1) ch ds stk).1 ++
          (upLevels cfg (m2 :: rms2)
            (upResBlocks cfg m true (cfg.num_res_blocks + 1) ch ds stk).2.1
            (upResBlocks cfg m true (cfg.num_res_blocks + 1) ch ds stk).2.2.1
            (upResBlocks cfg m true (cfg.num_res_blocks + 1) ch ds stk).2.2.2).1,
        (upLevels cfg (m2 :: rms2)
          (upResBlocks cfg m true (cfg.num_res_blocks + 1) ch ds stk).2.1
          (upResBlocks cfg m true (cfg.num_res_blocks + 1) ch ds stk).2.2.1
          (upResBlocks cfg m true (cfg.num_res_blocks + 1) ch ds stk).2.2.2).2.1,
        (upLevels cfg (m2 :: rms2)
          (upResBlocks cfg m true (cfg.num_res_blocks + 1) ch ds stk).2.1
          (upResBlocks cfg m true (cfg.num_res_blocks + 1) ch ds stk).2.2.1
          (upResBlocks cfg m true (cfg.num_res_blocks + 1) ch ds stk).2.2.2).2.2.1,
        (upLevels cfg (m2 :: rms2)
          (upResBlocks cfg m true (cfg.num_res_blocks + 1) ch ds stk).2.1
          (upResBlocks cfg m true (cfg.num_res_blocks + 1) ch ds stk).2.2.1
          (upResBlocks cfg m true (cfg.num_res_blocks + 1) ch ds stk).2.2.2).2.2.2) := rfl

theorem decStackB_cons (cfg : UNetCfg) (N m : ℕ) (rms : List ℕ) (b h w : ℕ) :
    decStackB cfg N (m :: rms) b h w =
      List.replicate cfg.num_res_blocks ⟨N, m * cfg.model_channels, h, w⟩ ++
        ⟨N, belowChB cfg b rms, h, w⟩ :: decStackB cfg N rms b (2 * h) (2 * w) := rfl

/--
Running one decoder level (`num_res_blocks + 1` repeats): the level pops the
first `pre.length` entries of the stack (all of which live at the current
spatial size), each repeat concatenates the popped entry and runs
`ResidualBlock(ch + popped, model_channels * mult) [+ attention]`, and on a
level with `lvlPos` set the output is additionally upsampled and `ds` is
halved.  The construction (on the channel stack) and the runtime execution
(on the shape stack) stay in lockstep.
-/
theorem upResBlocks_run (cfg : UNetCfg) (N mult : ℕ)
    (hdm : cfg.num_heads ∣ cfg.model_channels * mult) (lvlPos : Bool) :
    ∀ (pre rest : List Shape4) (ch ds h w : ℕ), 1 ≤ h → 1 ≤ w → pre ≠ [] →
      (∀ s ∈ pre, s.n = N ∧ s.h = h ∧ s.w = w) →
      (upResBlocks cfg mult lvlPos pre.length ch ds ((pre ++ rest).map (·.c))).2.1
          = cfg.model_channels * mult
      ∧ (upResBlocks cfg mult lvlPos pre.length ch ds ((pre ++ rest).map (·.c))).2.2.1
          = (if lvlPos then ds / 2 else ds)
      ∧ (upResBlocks cfg mult lvlPos pre.length ch ds ((pre ++ rest).map (·.c))).2.2.2
          = rest.map (·.c)
      ∧ runUpStages (N, cfg.param_hidden_dim) (cfg.model_channels * 4)
          (upResBlocks cfg mult lvlPos pre.length ch ds ((pre ++ rest).map (·.c))).1
          ⟨N, ch, h, w⟩ (pre ++ rest)
        = some ((if lvlPos then (⟨N, cfg.model_channels * mult, 2 * h, 2 * w⟩ : Shape4)
              else ⟨N, cfg.model_channels * mult, h, w⟩), rest, pre) := by
  intro pre
  induction pre with
  | nil => intro rest ch ds h w hh hw hne; exact absurd rfl hne
  | cons p pre ih =>
      intro rest ch ds h w hh hw _ hfields
      obtain ⟨hpn, hph, hpw⟩ := hfields p (by simp)
      have hcat : catChannels ⟨N, ch, h, w⟩ p = some ⟨N, ch + p.c, h, w⟩ := by
        simp [catChannels, hpn, hph, hpw]
      have hstage : runLayers (N, cfg.param_hidden_dim) (cfg.model_channels * 4)
          (Layer.resblock (ch + p.c) (cfg.model_channels * mult) (cfg.model_channels * 4) ::
            attnLayers cfg ds (cfg.model_channels * mult)) ⟨N, ch + p.c, h, w⟩
          = some ⟨N, cfg.model_channels * mult, h, w⟩ :=
        runLayers_resStage cfg ds (ch + p.c) (cfg.model_channels * mult) N h w hdm hh hw
      have hhead : (((p :: pre) ++ rest).map (·.c)).headD 0 = p.c := by simp
      have htail : (((p :: pre) ++ rest).map (·.c)).tail = (pre ++ rest).map (·.c) := by simp
      cases pre with
      | nil =>
          -- the last repeat of the level
          cases lvlPos with
          | false =>
              rw [show (([p] : List Shape4)).length = 1 from rfl,
                upResBlocks_one_false, hhead, htail]
              refine ⟨rfl, rfl, rfl, ?_⟩
              rw [List.singleton_append, runUpStages_cons, hcat, Option.some_bind,
                hstage, Option.some_bind, runUpStages_nil]
              rfl
          | true =>
              rw [show (([p] : List Shape4)).length = 1 from rfl,
                upResBlocks_one_true, hhead, htail]
              refine ⟨rfl, rfl, rfl, ?_⟩
              rw [List.singleton_append, runUpStages_cons, hcat, Option.some_bind,
                runLayers_append, hstage, Option.some_bind, runLayers_singleton,
                applyLayer_upsample (N, cfg.param_hidden_dim) (cfg.model_channels * 4)
                  (cfg.model_channels * mult) N (cfg.model_channels * mult) h w
                  cfg.conv_resample rfl hh hw, Option.some_bind, runUpStages_nil]
              rfl
      | cons p2 pre2 =>
          have ihr := ih rest (cfg.model_channels * mult) ds h w hh hw (by simp)
            (fun s hs => hfields s (by simp [hs]))
          have hlen : ((p :: p2 :: pre2) : List Shape4).length
              = (p2 :: pre2).length + 1 := rfl
          rw [hlen, upResBlocks_step cfg mult lvlPos (p2 :: pre2).length ch ds _ (by simp),
            hhead, htail]
          refine ⟨ihr.1, ihr.2.1, ihr.2.2.1, ?_⟩
          rw [show ((p :: p2 :: pre2) ++ rest : List Shape4)
              = p :: ((p2 :: pre2) ++ rest) from rfl,
            runUpStages_cons, hcat, Option.some_bind, hstage, Option.some_bind,
            ihr.2.2.2]
          rfl

theorem decStack_split (cfg : UNetCfg) (N m : ℕ) (rms : List ℕ) (b h w : ℕ) :
    decStackB cfg N (m :: rms) b h w =
      (List.replicate cfg.num_res_blocks ⟨N, m * cfg.model_channels, h, w⟩ ++
          [(⟨N, belowChB cfg b rms, h, w⟩ : Shape4)]) ++ decStackB cfg N rms b (2 * h) (2 * w) := by
  rw [decStackB_cons, List.append_assoc, List.singleton_append]

/--
Main decoder lemma: running the decoder levels `rms` (reversed multiplier
list) from spatial size `(h, w)` on the stack `decStackB cfg N rms b h w`
drains the stack completely, pops every entry (in stack order), upsamples
once per level except the last-processed one, and ends with channel count
`model_channels * rms.getLast` at spatial size `2^(|rms|-1) * (h, w)`.
-/
theorem upLevels_run (cfg : UNetCfg) (N : ℕ) :
    ∀ (rms : List ℕ) (b ch ds h w : ℕ), rms ≠ [] → 1 ≤ h → 1 ≤ w →
      (∀ m ∈ rms, cfg.num_heads ∣ cfg.model_channels * m) →
      (upLevels cfg rms ch ds ((decStackB cfg N rms b h w).map (·.c))).2.1
          = cfg.model_channels * (rms.getLast?).getD 0
      ∧ (upLevels cfg rms ch ds ((decStackB cfg N rms b h w).map (·.c))).2.2.2 = []
      ∧ runUpStages (N, cfg.param_hidden_dim) (cfg.model_channels * 4)
          (upLevels cfg rms ch ds ((decStackB cfg N rms b h w).map (·.c))).1
          ⟨N, ch, h, w⟩ (decStackB cfg N rms b h w)
        = some (⟨N, cfg.model_channels * (rms.getLast?).getD 0,
              2 ^ (rms.length - 1) * h, 2 ^ (rms.length - 1) * w⟩, [],
            decStackB cfg N rms b h w) := by
  intro rms
  induction rms with
  | nil => intro b ch ds h w hne; exact absurd rfl hne
  | cons m rms ih =>
      intro b ch ds h w _ hh hw hheads
      have hdm : cfg.num_heads ∣ cfg.model_channels * m := hheads m (by simp)
      have hpre : (List.replicate cfg.num_res_blocks
            (⟨N, m * cfg.model_channels, h, w⟩ : Shape4) ++
          [(⟨N, belowChB cfg b rms, h, w⟩ : Shape4)]).length = cfg.num_res_blocks + 1 := by
        simp
      have hprene : (List.replicate cfg.num_res_blocks
            (⟨N, m * cfg.model_channels, h, w⟩ : Shape4) ++
          [(⟨N, belowChB cfg b rms, h, w⟩ : Shape4)]) ≠ [] := by
        simp
      have hfields : ∀ s ∈ (List.replicate cfg.num_res_blocks
            (⟨N, m * cfg.model_channels, h, w⟩ : Shape4) ++
          [(⟨N, belowChB cfg b rms, h, w⟩ : Shape4)]), s.n = N ∧ s.h = h ∧ s.w = w := by
        intro s hs
        rcases List.mem_append.1 hs with h1 | h2
        · rw [List.eq_of_mem_replicate h1]
          exact ⟨rfl, rfl, rfl⟩
        · rw [List.mem_singleton.1 h2]
          exact ⟨rfl, rfl, rfl⟩
      cases rms with
      | nil =>
          have hur := upResBlocks_run cfg N m hdm false
            (List.replicate cfg.num_res_blocks ⟨N, m * cfg.model_channels, h, w⟩ ++
              [(⟨N, belowChB cfg b [], h, w⟩ : Shape4)]) [] ch ds h w hh hw hprene hfields
          rw [List.append_nil, hpre] at hur
          obtain ⟨hur1, hur2, hur3, hur4⟩ := hur
          have hds : decStackB cfg N [m] b h w
              = List.replicate cfg.num_res_blocks ⟨N, m * cfg.model_channels, h, w⟩ ++
                  [(⟨N, belowChB cfg b [], h, w⟩ : Shape4)] := rfl
          rw [hds, upLevels_one]
          refine ⟨?_, ?_, ?_⟩
          · show (upResBlocks cfg m false (cfg.num_res_blocks + 1) ch ds _).2.1 = _
            rw [hur1]
            simp
          · show (upResBlocks cfg m false (cfg.num_res_blocks + 1) ch ds _).2.2.2 = _
            rw [hur3]
            rfl
          · show runUpStages (N, cfg.param_hidden_dim) (cfg.model_channels * 4)
              (upResBlocks cfg m false (cfg.num_res_blocks + 1) ch ds _).1
              ⟨N, ch, h, w⟩ _ = _
            rw [hur4]
            simp
      | cons m2 rms2 =>
          have hur := upResBlocks_run cfg N m hdm true
            (List.replicate cfg.num_res_blocks ⟨N, m * cfg.model_channels, h, w⟩ ++
              [(⟨N, belowChB cfg b (m2 :: rms2), h, w⟩ : Shape4)])
            (decStackB cfg N (m2 :: rms2) b (2 * h) (2 * w)) ch ds h w hh hw hprene hfields
          rw [hpre] at hur
          obtain ⟨hur1, hur2, hur3, hur4⟩ := hur
          rw [show (if (true : Bool) = true then ds / 2 else ds) = ds / 2 from rfl] at hur2
          rw [show (if (true : Bool) = true
              then (⟨N, cfg.model_channels * m, 2 * h, 2 * w⟩ : Shape4)
              else ⟨N, cfg.model_channels * m, h, w⟩)
            = ⟨N, cfg.model_channels * m, 2 * h, 2 * w⟩ from rfl] at hur4
          have ihr := ih b (cfg.model_channels * m) (ds / 2) (2 * h) (2 * w)
            (by simp) (by omega) (by omega) (fun m' hm' => hheads m' (by simp [hm']))
          obtain ⟨ihr1, ihr2, ihr3⟩ := ihr
          have hsp : 2 ^ ((m2 :: rms2 : List ℕ).length - 1) * (2 * h)
              = 2 ^ ((m :: m2 :: rms2 : List ℕ).length - 1) * h := by
            rw [show ((m :: m2 :: rms2 : List ℕ).length - 1)
                = ((m2 :: rms2 : List ℕ).length - 1) + 1 by simp, pow_succ]
            ring
          have htp : 2 ^ ((m2 :: rms2 : List ℕ).length - 1) * (2 * w)
              = 2 ^ ((m :: m2 :: rms2 : List ℕ).length - 1) * w := by
            rw [show ((m :: m2 :: rms2 : List ℕ).length - 1)
                = ((m2 :: rms2 : List ℕ).length - 1) + 1 by simp, pow_succ]
            ring
          rw [decStack_split, upLevels_cons2, hur1, hur2, hur3]
          refine ⟨?_, ?_, ?_⟩
          · show (upLevels cfg (m2 :: rms2) (cfg.model_channels * m) (ds / 2)
              ((decStackB cfg N (m2 :: rms2) b (2 * h) (2 * w)).map (·.c))).2.1 = _
            rw [ihr1, List.getLast?_cons_cons]
          · exact ihr2
          · show runUpStages (N, cfg.param_hidden_dim) (cfg.model_channels * 4)
              ((upResBlocks cfg m true (cfg.num_res_blocks + 1) ch ds _).1 ++
                (upLevels cfg (m2 :: rms2) (cfg.model_channels * m) (ds / 2)
                  ((decStackB cfg N (m2 :: rms2) b (2 * h) (2 * w)).map (·.c))).1)
              ⟨N, ch, h, w⟩ _ = _
            rw [runUpStages_append, hur4, Option.some_bind, ihr3, Option.map_some']
            rw [hsp, htp, List.getLast?_cons_cons]

/-!
### The encoder's pushes are exactly what the decoder consumes
-/

theorem belowChB_snoc (cfg : UNetCfg) (b m : ℕ) (xs : List ℕ) :
    belowChB cfg b (xs ++ [m]) =
      belowChB cfg (if cfg.num_res_blocks = 0 then b else m * cfg.model_channels) xs := by
  cases xs with
  | nil =>
      show chAfterL cfg b m = _
      by_cases hR : cfg.num_res_blocks = 0 <;> simp [chAfterL, belowChB, hR]
  | cons x xs =>
      show chAfterL cfg b x = chAfterL cfg _ x
      by_cases hR : cfg.num_res_blocks = 0 <;> simp [chAfterL, hR]

theorem decStackB_snoc (cfg : UNetCfg) (N : ℕ) :
    ∀ (xs : List ℕ) (m b h w : ℕ),
      decStackB cfg N (xs ++ [m]) b h w =
        decStackB cfg N xs (if cfg.num_res_blocks = 0 then b else m * cfg.model_channels)
            h w ++
          (List.replicate cfg.num_res_blocks
              ⟨N, m * cfg.model_channels, 2 ^ xs.length * h, 2 ^ xs.length * w⟩ ++
            [(⟨N, b, 2 ^ xs.length * h, 2 ^ xs.length * w⟩ : Shape4)]) := by
  intro xs
  induction xs with
  | nil =>
      intro m b h w
      simp [decStackB, belowChB, chAfterL]
  | cons x xs ih =>
      intro m b h w
      rw [List.cons_append, decStackB_cons, decStackB_cons, belowChB_snoc, ih]
      have e1 : 2 ^ xs.length * (2 * h) = 2 ^ (x :: xs : List ℕ).length * h := by
        rw [List.length_cons, pow_succ]; ring
      have e2 : 2 ^ xs.length * (2 * w) = 2 ^ (x :: xs : List ℕ).length * w := by
        rw [List.length_cons, pow_succ]; ring
      rw [e1, e2]
      simp [List.append_assoc]

/--
Bridge: the skip stack accumulated by the encoder (its level pushes on top of
the initial projection's push) is exactly the stack the decoder description
`decStackB` consumes, with levels in reversed order.
-/
theorem encPushes_decStackB (cfg : UNetCfg) (N : ℕ) :
    ∀ (ms : List ℕ) (ch h w : ℕ), ms ≠ [] →
      encPushes cfg N ms ch (2 ^ (ms.length - 1) * h) (2 ^ (ms.length - 1) * w) ++
          [(⟨N, ch, 2 ^ (ms.length - 1) * h, 2 ^ (ms.length - 1) * w⟩ : Shape4)]
        = decStackB cfg N ms.reverse ch h w := by
  intro ms
  induction ms with
  | nil => intro ch h w hne; exact absurd rfl hne
  | cons m rest ih =>
      intro ch h w _
      cases rest with
      | nil =>
          rw [encPushes_one]
          simp [decStackB, belowChB]
      | cons m2 rest2 =>
          have hk : 1 ≤ (m2 :: rest2 : List ℕ).length := by simp
          have hlen : (m :: m2 :: rest2 : List ℕ).length - 1
              = (m2 :: rest2 : List ℕ).length := by simp
          have hS2 : 2 ^ (m2 :: rest2 : List ℕ).length * h / 2
              = 2 ^ ((m2 :: rest2 : List ℕ).length - 1) * h := pow2_mul_div2 _ h hk
          have hT2 : 2 ^ (m2 :: rest2 : List ℕ).length * w / 2
              = 2 ^ ((m2 :: rest2 : List ℕ).length - 1) * w := pow2_mul_div2 _ w hk
          have ihr := ih (chAfterL cfg ch m) h w (by simp)
          rw [hlen, encPushes_cons2, hS2, hT2]
          rw [show ((m :: m2 :: rest2 : List ℕ).reverse)
              = (m2 :: rest2 : List ℕ).reverse ++ [m] from by simp]
          rw [decStackB_snoc]
          rw [show (if cfg.num_res_blocks = 0 then ch else m * cfg.model_channels)
              = chAfterL cfg ch m from rfl]
          rw [← ihr]
          have hrl : ((m2 :: rest2 : List ℕ).reverse).length
              = (m2 :: rest2 : List ℕ).length := by simp
          rw [hrl]
          simp [List.append_assoc]

theorem foldl_chAfterL_mem (cfg : UNetCfg) :
    ∀ (ms : List ℕ) (ch : ℕ),
      ms.foldl (chAfterL cfg) ch = ch ∨
        ∃ m ∈ ms, ms.foldl (chAfterL cfg) ch = m * cfg.model_channels := by
  intro ms
  induction ms with
  | nil => intro ch; exact Or.inl rfl
  | cons m rest ih =>
      intro ch
      rw [List.foldl_cons]
      rcases ih (chAfterL cfg ch m) with h1 | ⟨m', hm', h2⟩
      · rw [h1]
        by_cases hR : cfg.num_res_blocks = 0
        · exact Or.inl (by simp [chAfterL, hR])
        · exact Or.inr ⟨m, by simp, by simp [chAfterL, hR]⟩
      · exact Or.inr ⟨m', by simp [hm'], h2⟩

/-!
### Assembled forward pass
-/

/--
Master lemma for `UNet.forward` up to the output heads: on a batch of images
`(N, in_channels, 2^(L-1) h, 2^(L-1) w)` with parameters `(N, param_dim)`,
the encoder, middle block and decoder all succeed; the decoder output has
channel count `model_channels * channel_mult[0]` at the input's spatial
size; the skip stack built by the encoder is `decStackB …`, it is drained
completely by the decoder (final stack `[]`), and the popped entries are
exactly the stack in order.  In addition, the decoder's final construction
channel count (used to declare the `img_out` group norm) is
`model_channels * channel_mult[0]`.
-/
theorem unetForwardPre_run (cfg : UNetCfg) (N h w : ℕ)
    (hne : cfg.channel_mult ≠ []) (hnh : cfg.num_heads ∣ cfg.model_channels)
    (hh : 1 ≤ h) (hw : 1 ≤ w) :
    unetForwardPre cfg
        ⟨N, cfg.in_channels, 2 ^ (cfg.channel_mult.length - 1) * h,
          2 ^ (cfg.channel_mult.length - 1) * w⟩ cfg.param_dim
      = some ⟨⟨N, cfg.model_channels * cfg.channel_mult.headD 0,
            2 ^ (cfg.channel_mult.length - 1) * h, 2 ^ (cfg.channel_mult.length - 1) * w⟩,
          decStackB cfg N cfg.channel_mult.reverse cfg.model_channels h w, [],
          decStackB cfg N cfg.channel_mult.reverse cfg.model_channels h w,
          (N, cfg.param_hidden_dim)⟩
    ∧ (upResult cfg).2.1 = cfg.model_channels * cfg.channel_mult.headD 0 := by
  obtain ⟨m0, rest, hms⟩ := List.exists_cons_of_ne_nil hne
  rw [hms]
  have hS1 : (1:ℕ) ≤ 2 ^ ((m0 :: rest).length - 1) * h :=
    Nat.mul_pos (Nat.pos_pow_of_pos _ (by norm_num)) hh
  have hT1 : (1:ℕ) ≤ 2 ^ ((m0 :: rest).length - 1) * w :=
    Nat.mul_pos (Nat.pos_pow_of_pos _ (by norm_num)) hw
  have hdvd : ∀ m ∈ (m0 :: rest), cfg.num_heads ∣ m * cfg.model_channels :=
    fun m _ => Dvd.dvd.mul_left hnh m
  have hdvd' : ∀ m ∈ (m0 :: rest).reverse, cfg.num_heads ∣ cfg.model_channels * m :=
    fun m _ => Dvd.dvd.mul_right hnh m
  obtain ⟨hrun, hfold, hchans⟩ := downLevels_run cfg N (m0 :: rest) cfg.model_channels 1 h w
    [⟨N, cfg.model_channels, 2 ^ ((m0 :: rest).length - 1) * h,
      2 ^ ((m0 :: rest).length - 1) * w⟩] hh hw hdvd
  have hconv : runLayers (N, cfg.param_hidden_dim) (cfg.model_channels * 4)
      [Layer.conv2d cfg.in_channels cfg.model_channels 3 1 1]
      ⟨N, cfg.in_channels, 2 ^ ((m0 :: rest).length - 1) * h,
        2 ^ ((m0 :: rest).length - 1) * w⟩
      = some ⟨N, cfg.model_channels, 2 ^ ((m0 :: rest).length - 1) * h,
          2 ^ ((m0 :: rest).length - 1) * w⟩ := by
    rw [runLayers_singleton]
    exact conv2dShape_k3p1 cfg.in_channels cfg.model_channels N cfg.in_channels _ _
      rfl hS1 hT1
  have hdres1 : (downResult cfg).1
      = [Layer.conv2d cfg.in_channels cfg.model_channels 3 1 1] ::
        (downLevels cfg cfg.channel_mult cfg.model_channels 1).1 := rfl
  have hdown : runDownStages (N, cfg.param_hidden_dim) (cfg.model_channels * 4)
      (downResult cfg).1
      ⟨N, cfg.in_channels, 2 ^ ((m0 :: rest).length - 1) * h,
        2 ^ ((m0 :: rest).length - 1) * w⟩ []
      = some (⟨N, (downLevels cfg (m0 :: rest) cfg.model_channels 1).2.2.1, h, w⟩,
          decStackB cfg N (m0 :: rest).reverse cfg.model_channels h w) := by
    rw [hdres1, hms, runDownStages_cons, hconv, Option.some_bind, hrun,
      encPushes_decStackB cfg N (m0 :: rest) cfg.model_channels h w (by simp)]
  have hchMid : cfg.num_heads ∣ (downLevels cfg (m0 :: rest) cfg.model_channels 1).2.2.1 := by
    rw [hfold]
    rcases foldl_chAfterL_mem cfg (m0 :: rest) cfg.model_channels with h1 | ⟨m', _, h2⟩
    · rw [h1]; exact hnh
    · rw [h2]; exact Dvd.dvd.mul_left hnh m'
  have hmidC : (downResult cfg).2.2.1
      = (downLevels cfg (m0 :: rest) cfg.model_channels 1).2.2.1 := by
    rw [show (downResult cfg).2.2.1
        = (downLevels cfg cfg.channel_mult cfg.model_channels 1).2.2.1 from rfl, hms]
  have hmid : runLayers (N, cfg.param_hidden_dim) (cfg.model_channels * 4)
      (middleBlock cfg (downResult cfg).2.2.1)
      ⟨N, (downLevels cfg (m0 :: rest) cfg.model_channels 1).2.2.1, h, w⟩
      = some ⟨N, (downLevels cfg (m0 :: rest) cfg.model_channels 1).2.2.1, h, w⟩ := by
    rw [hmidC]
    exact runLayers_middle cfg _ N h w hchMid hh hw
  have hstk : (downResult cfg).2.1.reverse
      = (decStackB cfg N (m0 :: rest).reverse cfg.model_channels h w).map (·.c) := by
    rw [show (downResult cfg).2.1
        = cfg.model_channels :: (downLevels cfg cfg.channel_mult cfg.model_channels 1).2.1
      from rfl, hms, List.reverse_cons, hchans,
      show ([cfg.model_channels] : List ℕ)
        = ([(⟨N, cfg.model_channels, 2 ^ ((m0 :: rest).length - 1) * h,
            2 ^ ((m0 :: rest).length - 1) * w⟩ : Shape4)]).map (·.c) from rfl,
      ← List.map_append,
      encPushes_decStackB cfg N (m0 :: rest) cfg.model_channels h w (by simp)]
  have hupR : upResult cfg
      = upLevels cfg (m0 :: rest).reverse
          (downLevels cfg (m0 :: rest) cfg.model_channels 1).2.2.1
          (downResult cfg).2.2.2
          ((decStackB cfg N (m0 :: rest).reverse cfg.model_channels h w).map (·.c)) := by
    rw [show upResult cfg
        = upLevels cfg cfg.channel_mult.reverse (downResult cfg).2.2.1
            (downResult cfg).2.2.2 (downResult cfg).2.1.reverse from rfl,
      hms, hmidC, hstk]
  obtain ⟨hUL1, hUL2, hUL3⟩ := upLevels_run cfg N (m0 :: rest).reverse cfg.model_channels
    (downLevels cfg (m0 :: rest) cfg.model_channels 1).2.2.1 (downResult cfg).2.2.2 h w
    (by simp) hh hw hdvd'
  have hlast : (((m0 :: rest).reverse).getLast?).getD 0 = m0 := by
    rw [List.getLast?_reverse]
    rfl
  have hlenrev : (((m0 :: rest) : List ℕ).reverse).length = ((m0 :: rest) : List ℕ).length :=
    List.length_reverse _
  constructor
  · simp only [unetForwardPre]
    have hpe : paramEncoderShape cfg
        (Shape4.n ⟨N, cfg.in_channels, 2 ^ ((m0 :: rest).length - 1) * h,
          2 ^ ((m0 :: rest).length - 1) * w⟩)
        cfg.param_dim (cfg.model_channels * 4) = some (N, cfg.param_hidden_dim) := by
      simp [paramEncoderShape]
    rw [hpe, Option.some_bind, hdown, Option.some_bind]
    simp only []
    rw [hmid, Option.some_bind, hupR, hUL3, Option.map_some']
    rw [hlast, hlenrev]
    rfl
  · rw [hupR, hUL1, hlast]
    rfl

/--
Running the `img_out` head (lines 368-372) on a decoder output whose channel
count equals the declared norm width `chF`: the group norm passes, and the
convolution — declared with input width `model_channels` — succeeds exactly
when `chF = model_channels`.
-/
theorem runLayers_imgOut (cfg : UNetCfg) (pf : ℕ × ℕ) (embD N chF S T : ℕ)
    (hS : 1 ≤ S) (hT : 1 ≤ T) :
    runLayers pf embD (imgOutLayers cfg chF) ⟨N, chF, S, T⟩
      = if chF = cfg.model_channels then some ⟨N, cfg.out_channels, S, T⟩ else none := by
  unfold imgOutLayers
  rw [runLayers_cons,
    show applyLayer pf embD (.gnorm chF) ⟨N, chF, S, T⟩ = some ⟨N, chF, S, T⟩
      from by simp [applyLayer],
    Option.some_bind, runLayers_singleton]
  by_cases hc : chF = cfg.model_channels
  · rw [if_pos hc]
    exact conv2dShape_k3p1 cfg.model_channels cfg.out_channels N chF S T hc hS hT
  · rw [if_neg hc]
    show conv2dShape cfg.model_channels cfg.out_channels 3 1 1 ⟨N, chF, S, T⟩ = none
    simp [conv2dShape, hc]

/--
Claim C1: for every valid configuration (at least one stage,
`channel_mult[0] = 1`, `num_heads ∣ model_channels`,
`32 ∣ model_channels`) and every input batch — image
`(N, in_channels, H, W)` with `H = 2^(number of downsample stages) * h`,
`W = 2^(…) * w` for positive `h, w`, parameters `(N, param_dim)`,
timesteps `(N,)` — `UNet.forward` returns `image_out` of shape
`(N, out_channels, H, W)` (identical spatial size to the input) and
`param_out` of shape `(N, param_dim)`.
-/
theorem unet_forward_output_shapes (cfg : UNetCfg) (N h w : ℕ)
    (hv : validUNetConfig cfg) (hh : 1 ≤ h) (hw : 1 ≤ w) :
    unetForwardShape cfg
        ⟨N, cfg.in_channels, 2 ^ (cfg.channel_mult.length - 1) * h,
          2 ^ (cfg.channel_mult.length - 1) * w⟩ cfg.param_dim
      = some (⟨N, cfg.out_channels, 2 ^ (cfg.channel_mult.length - 1) * h,
            2 ^ (cfg.channel_mult.length - 1) * w⟩, (N, cfg.param_dim)) := by
  obtain ⟨hne, hm0, hnh, _⟩ := hv
  obtain ⟨hpre, hchF⟩ := unetForwardPre_run cfg N h w hne hnh hh hw
  have hS1 : (1:ℕ) ≤ 2 ^ (cfg.channel_mult.length - 1) * h :=
    Nat.mul_pos (Nat.pos_pow_of_pos _ (by norm_num)) hh
  have hT1 : (1:ℕ) ≤ 2 ^ (cfg.channel_mult.length - 1) * w :=
    Nat.mul_pos (Nat.pos_pow_of_pos _ (by norm_num)) hw
  unfold unetForwardShape unetForwardFull
  rw [hpre, Option.some_bind]
  simp only []
  rw [hchF, hm0, mul_one]
  rw [runLayers_imgOut cfg (N, cfg.param_hidden_dim) (cfg.model_channels * 4) N
    cfg.model_channels _ _ hS1 hT1, if_pos rfl, Option.some_bind]
  rw [show linearShape cfg.param_hidden_dim cfg.param_dim (N, cfg.param_hidden_dim)
      = some (N, cfg.param_dim) from by simp [linearShape]]
  rfl

theorem unet_forward_output_shapes_witness :
    validUNetConfig tinyCfg ∧
      unetForwardShape tinyCfg
          ⟨2, tinyCfg.in_channels, 2 ^ (tinyCfg.channel_mult.length - 1) * 1,
            2 ^ (tinyCfg.channel_mult.length - 1) * 1⟩ tinyCfg.param_dim
        = some (⟨2, tinyCfg.out_channels, 2 ^ (tinyCfg.channel_mult.length - 1) * 1,
              2 ^ (tinyCfg.channel_mult.length - 1) * 1⟩, (2, tinyCfg.param_dim)) :=
  ⟨by decide, unet_forward_output_shapes tinyCfg 2 1 1 (by decide) (by decide) (by decide)⟩

/--
Claim C2: the final image-output convolution is declared with input channel
count fixed to `model_channels` (first conjunct); the decoder's final stage
actually produces `model_channels * channel_mult[0]` channels (second and
third conjuncts), so for `channel_mult[0] = 1` the declared width matches
and the head (and the whole forward pass) succeeds, while for
`channel_mult[0] ≠ 1` the widths disagree: the head itself fails on the
decoder output (fourth conjunct) and the forward pass fails exactly there
(fifth conjunct) — the pass up to the head succeeded (third conjunct).
Positive `model_channels` is assumed (with zero base width both sides are 0
and no mismatch can occur).
-/
theorem unet_img_head_fixed_width (cfg : UNetCfg) (N h w : ℕ)
    (hne : cfg.channel_mult ≠ []) (hnh : cfg.num_heads ∣ cfg.model_channels)
    (hmc : 0 < cfg.model_channels) (hh : 1 ≤ h) (hw : 1 ≤ w) :
    (∀ c, imgOutLayers cfg c
        = [Layer.gnorm c, Layer.conv2d cfg.model_channels cfg.out_channels 3 1 1])
    ∧ (upResult cfg).2.1 = cfg.model_channels * cfg.channel_mult.headD 0
    ∧ (∃ tr : FwdTrace,
        unetForwardPre cfg
            ⟨N, cfg.in_channels, 2 ^ (cfg.channel_mult.length - 1) * h,
              2 ^ (cfg.channel_mult.length - 1) * w⟩ cfg.param_dim = some tr ∧
          tr.img = ⟨N, cfg.model_channels * cfg.channel_mult.headD 0,
              2 ^ (cfg.channel_mult.length - 1) * h, 2 ^ (cfg.channel_mult.length - 1) * w⟩)
    ∧ (cfg.channel_mult.headD 0 ≠ 1 →
        runLayers (N, cfg.param_hidden_dim) (cfg.model_channels * 4)
          (imgOutLayers cfg (upResult cfg).2.1)
          ⟨N, cfg.model_channels * cfg.channel_mult.headD 0,
            2 ^ (cfg.channel_mult.length - 1) * h, 2 ^ (cfg.channel_mult.length - 1) * w⟩
          = none)
    ∧ ((unetForwardShape cfg
          ⟨N, cfg.in_channels, 2 ^ (cfg.channel_mult.length - 1) * h,
            2 ^ (cfg.channel_mult.length - 1) * w⟩ cfg.param_dim).isSome
        ↔ cfg.channel_mult.headD 0 = 1) := by
  obtain ⟨hpre, hchF⟩ := unetForwardPre_run cfg N h w hne hnh hh hw
  have hS1 : (1:ℕ) ≤ 2 ^ (cfg.channel_mult.length - 1) * h :=
    Nat.mul_pos (Nat.pos_pow_of_pos _ (by norm_num)) hh
  have hT1 : (1:ℕ) ≤ 2 ^ (cfg.channel_mult.length - 1) * w :=
    Nat.mul_pos (Nat.pos_pow_of_pos _ (by norm_num)) hw
  have hhead : runLayers (N, cfg.param_hidden_dim) (cfg.model_channels * 4)
      (imgOutLayers cfg (upResult cfg).2.1)
      ⟨N, cfg.model_channels * cfg.channel_mult.headD 0,
        2 ^ (cfg.channel_mult.length - 1) * h, 2 ^ (cfg.channel_mult.length - 1) * w⟩
      = if cfg.model_channels * cfg.channel_mult.headD 0 = cfg.model_channels
        then some ⟨N, cfg.out_channels, 2 ^ (cfg.channel_mult.length - 1) * h,
            2 ^ (cfg.channel_mult.length - 1) * w⟩
        else none := by
    rw [hchF]
    exact runLayers_imgOut cfg (N, cfg.param_hidden_dim) (cfg.model_channels * 4) N
      (cfg.model_channels * cfg.channel_mult.headD 0) _ _ hS1 hT1
  have hne1 : ∀ m0 : ℕ, m0 ≠ 1 → cfg.model_channels * m0 ≠ cfg.model_channels :=
    fun m0 hm0 he => hm0 (Nat.eq_of_mul_eq_mul_left hmc (he.trans (mul_one _).symm))
  refine ⟨fun c => rfl, hchF, ⟨_, hpre, rfl⟩, ?_, ?_⟩
  · intro hm0
    rw [hhead, if_neg (hne1 _ hm0)]
  · unfold unetForwardShape unetForwardFull
    rw [hpre, Option.some_bind]
    simp only []
    rw [hhead]
    by_cases hc1 : cfg.channel_mult.headD 0 = 1
    · rw [hc1, mul_one, if_pos rfl, Option.some_bind]
      rw [show linearShape cfg.param_hidden_dim cfg.param_dim (N, cfg.param_hidden_dim)
          = some (N, cfg.param_dim) from by simp [linearShape]]
      simp [hc1]
    · rw [if_neg (hne1 _ hc1)]
      simp only [Option.none_bind, Option.map_none', Option.isSome_none,
        Bool.false_eq_true, false_iff]
      exact hc1

theorem unet_img_head_fixed_width_witness :
    tinyCfgMult2.channel_mult ≠ [] ∧ 0 < tinyCfgMult2.model_channels ∧
      ((unetForwardShape tinyCfgMult2
          ⟨2, tinyCfgMult2.in_channels, 2 ^ (tinyCfgMult2.channel_mult.length - 1) * 1,
            2 ^ (tinyCfgMult2.channel_mult.length - 1) * 1⟩ tinyCfgMult2.param_dim).isSome
        ↔ tinyCfgMult2.channel_mult.headD 0 = 1) :=
  ⟨by decide, by decide,
    (unet_img_head_fixed_width tinyCfgMult2 2 1 1 (by decide) (by decide) (by decide)
      (by decide) (by decide)).2.2.2.2⟩

/-!
### Stage counts and upsample placement
-/

theorem downResBlocks_len (cfg : UNetCfg) (m : ℕ) :
    ∀ (n ch ds : ℕ), ((downResBlocks cfg m n ch ds).1).length = n := by
  intro n
  induction n with
  | zero => intro ch ds; rfl
  | succ n ih => intro ch ds; simp [downResBlocks, ih]

theorem downLevels_len (cfg : UNetCfg) :
    ∀ (ms : List ℕ) (ch ds : ℕ),
      ((downLevels cfg ms ch ds).1).length
        = ms.length * cfg.num_res_blocks + (ms.length - 1) := by
  intro ms
  induction ms with
  | nil => intro ch ds; simp [downLevels]
  | cons m rest ih =>
      intro ch ds
      cases rest with
      | nil => rw [downLevels_one]; simp [downResBlocks_len]
      | cons m2 rest2 =>
          rw [downLevels_cons2]
          show ((downResBlocks cfg m cfg.num_res_blocks ch ds).1 ++
            [Layer.downsample (downResBlocks cfg m cfg.num_res_blocks ch ds).2.2
              cfg.conv_resample] ::
              (downLevels cfg (m2 :: rest2)
                (downResBlocks cfg m cfg.num_res_blocks ch ds).2.2 (ds * 2)).1).length = _
          rw [List.length_append, List.length_cons, downResBlocks_len, ih]
          simp only [List.length_cons]
          have e : (rest2.length + 1 + 1) * cfg.num_res_blocks
              = (rest2.length + 1) * cfg.num_res_blocks + cfg.num_res_blocks := by ring
          omega

theorem upResBlocks_len (cfg : UNetCfg) (mult : ℕ) (lvlPos : Bool) :
    ∀ (n ch ds : ℕ) (stk : List ℕ),
      ((upResBlocks cfg mult lvlPos n ch ds stk).1).length = n := by
  intro n
  induction n with
  | zero => intro ch ds stk; rfl
  | succ n ih =>
      intro ch ds stk
      by_cases hc : (lvlPos : Prop) ∧ n = 0 <;> simp [upResBlocks, hc, ih]

theorem upLevels_len (cfg : UNetCfg) :
    ∀ (rms : List ℕ) (ch ds : ℕ) (stk : List ℕ),
      ((upLevels cfg rms ch ds stk).1).length
        = rms.length * (cfg.num_res_blocks + 1) := by
  intro rms
  induction rms with
  | nil => intro ch ds stk; simp [upLevels_nil]
  | cons m rms ih =>
      intro ch ds stk
      rw [upLevels_cons]
      show ((upResBlocks cfg m (!rms.isEmpty) (cfg.num_res_blocks + 1) ch ds stk).1 ++
        (upLevels cfg rms _ _ _).1).length = _
      rw [List.length_append, upResBlocks_len, ih, List.length_cons]
      ring

theorem decStackB_len (cfg : UNetCfg) (N : ℕ) :
    ∀ (rms : List ℕ) (b h w : ℕ),
      (decStackB cfg N rms b h w).length = rms.length * (cfg.num_res_blocks + 1) := by
  intro rms
  induction rms with
  | nil => intro b h w; simp [decStackB]
  | cons m rms ih =>
      intro b h w
      rw [decStackB_cons, List.length_append, List.length_cons, List.length_replicate,
        ih, List.length_cons]
      ring

/--
Claim C4 (amended with `channel_mult ≠ []`): within one forward call the
skip stack starts empty, receives exactly one push per down block
(`1 + L*num_res_blocks + (L-1)` pushes, `L = len(channel_mult)`), is popped
exactly once per up block (`L*(num_res_blocks+1)` pops) in exact LIFO order
(the chronological pop sequence equals the stack as left by the encoder,
i.e. the reverse of the push order), the two counts agree, and the stack is
empty again at the end of the pass.
-/
theorem unet_stack_discipline (cfg : UNetCfg) (N h w : ℕ)
    (hne : cfg.channel_mult ≠ []) (hnh : cfg.num_heads ∣ cfg.model_channels)
    (hh : 1 ≤ h) (hw : 1 ≤ w) :
    ∃ tr : FwdTrace,
      unetForwardPre cfg
          ⟨N, cfg.in_channels, 2 ^ (cfg.channel_mult.length - 1) * h,
            2 ^ (cfg.channel_mult.length - 1) * w⟩ cfg.param_dim = some tr
      ∧ tr.hsEnd = []
      ∧ tr.popped = tr.hsMid
      ∧ tr.hsMid.length = (downResult cfg).1.length
      ∧ tr.popped.length = (upResult cfg).1.length
      ∧ (downResult cfg).1.length
          = 1 + cfg.channel_mult.length * cfg.num_res_blocks + (cfg.channel_mult.length - 1)
      ∧ (upResult cfg).1.length = cfg.channel_mult.length * (cfg.num_res_blocks + 1)
      ∧ 1 + cfg.channel_mult.length * cfg.num_res_blocks + (cfg.channel_mult.length - 1)
          = cfg.channel_mult.length * (cfg.num_res_blocks + 1) := by
  obtain ⟨hpre, _⟩ := unetForwardPre_run cfg N h w hne hnh hh hw
  have hL : 1 ≤ cfg.channel_mult.length := by
    cases hml : cfg.channel_mult with
    | nil => exact absurd hml hne
    | cons a l => simp [hml]
  have hdlen : (downResult cfg).1.length
      = 1 + cfg.channel_mult.length * cfg.num_res_blocks + (cfg.channel_mult.length - 1) := by
    rw [show (downResult cfg).1
        = [Layer.conv2d cfg.in_channels cfg.model_channels 3 1 1] ::
          (downLevels cfg cfg.channel_mult cfg.model_channels 1).1 from rfl]
    rw [List.length_cons, downLevels_len]
    omega
  have hulen : (upResult cfg).1.length
      = cfg.channel_mult.length * (cfg.num_res_blocks + 1) := by
    rw [show upResult cfg
        = upLevels cfg cfg.channel_mult.reverse (downResult cfg).2.2.1
            (downResult cfg).2.2.2 (downResult cfg).2.1.reverse from rfl]
    rw [upLevels_len, List.length_reverse]
  have hstacklen : (decStackB cfg N cfg.channel_mult.reverse cfg.model_channels h w).length
      = cfg.channel_mult.length * (cfg.num_res_blocks + 1) := by
    rw [decStackB_len, List.length_reverse]
  have harith : 1 + cfg.channel_mult.length * cfg.num_res_blocks +
      (cfg.channel_mult.length - 1)
      = cfg.channel_mult.length * (cfg.num_res_blocks + 1) := by
    have e : cfg.channel_mult.length * (cfg.num_res_blocks + 1)
        = cfg.channel_mult.length * cfg.num_res_blocks + cfg.channel_mult.length := by ring
    omega
  refine ⟨_, hpre, rfl, rfl, ?_, ?_, hdlen, hulen, harith⟩
  · show (decStackB cfg N cfg.channel_mult.reverse cfg.model_channels h w).length = _
    rw [hstacklen, hdlen]
    exact harith.symm
  · show (decStackB cfg N cfg.channel_mult.reverse cfg.model_channels h w).length = _
    rw [hstacklen, hulen]

theorem unet_stack_discipline_witness :
    ∃ tr : FwdTrace,
      unetForwardPre tinyCfg
          ⟨2, tinyCfg.in_channels, 2 ^ (tinyCfg.channel_mult.length - 1) * 1,
            2 ^ (tinyCfg.channel_mult.length - 1) * 1⟩ tinyCfg.param_dim = some tr
      ∧ tr.hsEnd = []
      ∧ tr.popped = tr.hsMid
      ∧ tr.hsMid.length = (downResult tinyCfg).1.length
      ∧ tr.popped.length = (upResult tinyCfg).1.length
      ∧ (downResult tinyCfg).1.length
          = 1 + tinyCfg.channel_mult.length * tinyCfg.num_res_blocks +
            (tinyCfg.channel_mult.length - 1)
      ∧ (upResult tinyCfg).1.length
          = tinyCfg.channel_mult.length * (tinyCfg.num_res_blocks + 1)
      ∧ 1 + tinyCfg.channel_mult.length * tinyCfg.num_res_blocks +
            (tinyCfg.channel_mult.length - 1)
          = tinyCfg.channel_mult.length * (tinyCfg.num_res_blocks + 1) :=
  unet_stack_discipline tinyCfg 2 1 1 (by decide) (by decide) (by decide) (by decide)

/--
Counterexample to claim C4 as frozen: with `channel_mult = []` (a
configuration the constructor accepts and whose forward pass succeeds), the
forward pass pushes once (the initial projection) but pops zero times, and
the stack is nonempty at the end — so "pushes equal pops for every
configuration" and "the stack ends empty" both fail.
-/
theorem unet_stack_discipline_cex :
    tinyCfgNoStage.channel_mult = [] ∧
    (unetForwardShape tinyCfgNoStage ⟨1, 1, 1, 1⟩ 4).isSome = true ∧
    (unetForwardPre tinyCfgNoStage ⟨1, 1, 1, 1⟩ 4).map
        (fun tr => (tr.hsMid.length, tr.popped.length, tr.hsEnd.length))
      = some (1, 0, 1) ∧
    (1 : ℕ) ≠ 0 := by
  refine ⟨rfl, ?_, ?_, by decide⟩
  · decide
  · decide

theorem attnLayers_noUps (cfg : UNetCfg) (ds ch : ℕ) :
    (attnLayers cfg ds ch).countP isUpsampleLayer = 0 := by
  unfold attnLayers
  by_cases h1 : ds ∈ cfg.attention_resolutions
  · rw [if_pos h1]
    by_cases h2 : cfg.use_cross_attention <;>
      simp [h2, List.countP_cons, isUpsampleLayer]
  · rw [if_neg h1]
    rfl

theorem upResBlocks_pattern (cfg : UNetCfg) (mult : ℕ) (lvlPos : Bool) :
    ∀ (n ch ds : ℕ) (stk : List ℕ), n ≠ 0 →
      ((upResBlocks cfg mult lvlPos n ch ds stk).1.map upsampleCount
          = List.replicate (n - 1) 0 ++ [if lvlPos then 1 else 0])
      ∧ (∀ st ∈ (upResBlocks cfg mult lvlPos n ch ds stk).1,
          st.dropLast.countP isUpsampleLayer = 0)
      ∧ (upResBlocks cfg mult lvlPos n ch ds stk).2.2.1 = (if lvlPos then ds / 2 else ds) := by
  intro n
  induction n with
  | zero => intro ch ds stk hn; exact absurd rfl hn
  | succ n ih =>
      intro ch ds stk _
      have hstage0 : (Layer.resblock (ch + stk.headD 0) (cfg.model_channels * mult)
          (cfg.model_channels * 4) ::
            attnLayers cfg ds (cfg.model_channels * mult)).countP isUpsampleLayer = 0 := by
        rw [List.countP_cons_of_neg _ _ (by simp [isUpsampleLayer])]
        exact attnLayers_noUps cfg ds (cfg.model_channels * mult)
      cases n with
      | zero =>
          cases lvlPos with
          | false =>
              rw [upResBlocks_one_false]
              refine ⟨?_, ?_, rfl⟩
              · simp only [List.map_cons, List.map_nil]
                rw [show upsampleCount (Layer.resblock (ch + stk.headD 0)
                    (cfg.model_channels * mult) (cfg.model_channels * 4) ::
                      attnLayers cfg ds (cfg.model_channels * mult)) = 0 from hstage0]
                rfl
              · intro st hst
                rw [List.mem_singleton.1 hst]
                exact Nat.le_zero.1 (le_trans
                  (List.Sublist.countP_le _ (List.dropLast_sublist _)) (le_of_eq hstage0))
          | true =>
              rw [upResBlocks_one_true]
              refine ⟨?_, ?_, rfl⟩
              · simp only [List.map_cons, List.map_nil]
                rw [show upsampleCount ((Layer.resblock (ch + stk.headD 0)
                    (cfg.model_channels * mult) (cfg.model_channels * 4) ::
                      attnLayers cfg ds (cfg.model_channels * mult)) ++
                    [Layer.upsample (cfg.model_channels * mult) cfg.conv_resample]) = 1
                  from by
                    unfold upsampleCount
                    rw [List.countP_append, hstage0]
                    rfl]
                rfl
              · intro st hst
                rw [List.mem_singleton.1 hst, List.dropLast_concat]
                exact hstage0
      | succ k =>
          obtain ⟨ih1, ih2, ih3⟩ := ih (cfg.model_channels * mult) ds stk.tail (by omega)
          rw [upResBlocks_step cfg mult lvlPos (k + 1) ch ds stk (by omega)]
          refine ⟨?_, ?_, ih3⟩
          · rw [List.map_cons, ih1]
            rw [show upsampleCount (Layer.resblock (ch + stk.headD 0)
                (cfg.model_channels * mult) (cfg.model_channels * 4) ::
                  attnLayers cfg ds (cfg.model_channels * mult)) = 0 from hstage0]
            rw [show (k + 1 + 1 - 1) = (k + 1 - 1) + 1 from by omega, List.replicate_succ]
            rfl
          · intro st hst
            rcases List.mem_cons.1 hst with hst1 | hst2
            · rw [hst1]
              exact Nat.le_zero.1 (le_trans
                (List.Sublist.countP_le _ (List.dropLast_sublist _)) (le_of_eq hstage0))
            · exact ih2 st hst2

theorem upLevels_pattern (cfg : UNetCfg) :
    ∀ (rms : List ℕ) (ch ds : ℕ) (stk : List ℕ),
      ((upLevels cfg rms ch ds stk).1.map upsampleCount = upPattern cfg rms)
      ∧ (∀ st ∈ (upLevels cfg rms ch ds stk).1,
          st.dropLast.countP isUpsampleLayer = 0)
      ∧ (upLevels cfg rms ch ds stk).2.2.1 = ds / 2 ^ (rms.length - 1) := by
  intro rms
  induction rms with
  | nil => intro ch ds stk; exact ⟨rfl, by simp [upLevels_nil], by simp [upLevels_nil]⟩
  | cons m rms ih =>
      intro ch ds stk
      rw [upLevels_cons]
      cases rms with
      | nil =>
          obtain ⟨hp1, hp2, hp3⟩ := upResBlocks_pattern cfg m false
            (cfg.num_res_blocks + 1) ch ds stk (by omega)
          obtain ⟨ihr1, ihr2, ihr3⟩ := ih
            (upResBlocks cfg m (!List.isEmpty ([] : List ℕ)) (cfg.num_res_blocks + 1)
              ch ds stk).2.1
            (upResBlocks cfg m (!List.isEmpty ([] : List ℕ)) (cfg.num_res_blocks + 1)
              ch ds stk).2.2.1
            (upResBlocks cfg m (!List.isEmpty ([] : List ℕ)) (cfg.num_res_blocks + 1)
              ch ds stk).2.2.2
          rw [show (!List.isEmpty ([] : List ℕ)) = false from rfl] at *
          refine ⟨?_, ?_, ?_⟩
          · rw [List.map_append, hp1, ihr1]
            simp [upPattern]
          · intro st hst
            rcases List.mem_append.1 hst with h1 | h2
            · exact hp2 st h1
            · exact ihr2 st h2
          · rw [ihr3, hp3]
            simp
      | cons m2 rms2 =>
          obtain ⟨hp1, hp2, hp3⟩ := upResBlocks_pattern cfg m true
            (cfg.num_res_blocks + 1) ch ds stk (by omega)
          obtain ⟨ihr1, ihr2, ihr3⟩ := ih
            (upResBlocks cfg m (!List.isEmpty (m2 :: rms2)) (cfg.num_res_blocks + 1)
              ch ds stk).2.1
            (upResBlocks cfg m (!List.isEmpty (m2 :: rms2)) (cfg.num_res_blocks + 1)
              ch ds stk).2.2.1
            (upResBlocks cfg m (!List.isEmpty (m2 :: rms2)) (cfg.num_res_blocks + 1)
              ch ds stk).2.2.2
          rw [show (!List.isEmpty (m2 :: rms2)) = true from rfl] at *
          refine ⟨?_, ?_, ?_⟩
          · rw [List.map_append, hp1, ihr1]
            simp [upPattern]
          · intro st hst
            rcases List.mem_append.1 hst with h1 | h2
            · exact hp2 st h1
            · exact ihr2 st h2
          · rw [ihr3, hp3]
            rw [show (if (true : Bool) = true then ds / 2 else ds) = ds / 2 from rfl]
            rw [Nat.div_div_eq_div_mul]
            rw [show ((m :: m2 :: rms2 : List ℕ).length - 1)
                = ((m2 :: rms2 : List ℕ).length - 1) + 1 from by simp]
            rw [pow_succ']

/--
Claim C3 (amended): in the decoder construction iterating `channel_mult` in
reverse with `num_res_blocks + 1` repeats per stage, an `Upsample` is
appended — as the final layer of the stage — exactly on the last repeat of
every level whose original index is nonzero, i.e. every level except the
last one processed (the finest-resolution, level-0 stage); in particular
the coarsest-resolution level does receive an `Upsample` whenever there are
at least two levels.  `ds` is halved at each such level, taking the
encoder's final `ds = 2^(L-1)` back to 1; no other decoder position
contains an `Upsample`.
-/
theorem unet_decoder_upsample_placement (cfg : UNetCfg) :
    ((upResult cfg).1.map upsampleCount = upPattern cfg cfg.channel_mult.reverse)
    ∧ (∀ st ∈ (upResult cfg).1, st.dropLast.countP isUpsampleLayer = 0)
    ∧ (downResult cfg).2.2.2 = 2 ^ (cfg.channel_mult.length - 1)
    ∧ (upResult cfg).2.2.1 = (downResult cfg).2.2.2 / 2 ^ (cfg.channel_mult.length - 1)
    ∧ (upResult cfg).2.2.1 = 1 := by
  obtain ⟨hp1, hp2, hp3⟩ := upLevels_pattern cfg cfg.channel_mult.reverse
    (downResult cfg).2.2.1 (downResult cfg).2.2.2 (downResult cfg).2.1.reverse
  have hupR : upResult cfg
      = upLevels cfg cfg.channel_mult.reverse (downResult cfg).2.2.1
          (downResult cfg).2.2.2 (downResult cfg).2.1.reverse := rfl
  have hds : (downResult cfg).2.2.2 = 2 ^ (cfg.channel_mult.length - 1) := by
    rw [show (downResult cfg).2.2.2
        = (downLevels cfg cfg.channel_mult cfg.model_channels 1).2.2.2 from rfl,
      downLevels_ds, one_mul]
  have hfds : (upResult cfg).2.2.1
      = (downResult cfg).2.2.2 / 2 ^ (cfg.channel_mult.length - 1) := by
    rw [hupR, hp3, List.length_reverse]
  refine ⟨by rw [hupR]; exact hp1, by rw [hupR]; exact hp2, hds, hfds, ?_⟩
  rw [hfds, hds]
  exact Nat.div_self (Nat.pos_pow_of_pos _ (by norm_num))

/--
Counterexample to claim C3 as frozen: for `tinyCfg` (`channel_mult = [1,2]`,
`num_res_blocks = 1`) the decoder's per-stage `Upsample` counts are
`[0, 1, 0, 0]` — the *coarsest*-resolution level (the first one processed,
original index 1) carries the `Upsample` on its last repeat, and the
level-0 stage has none.  The claim's placement ("every stage that is not
the coarsest-resolution stage") would instead give `[0, 0, 0, 1]`.
-/
theorem unet_decoder_upsample_placement_cex :
    (upResult tinyCfg).1.map upsampleCount = [0, 1, 0, 0] ∧
      (upResult tinyCfg).1.map upsampleCount ≠ [0, 0, 0, 1] := by
  exact ⟨by decide, by decide⟩

/-!
### Attention-block construction and the cross-modal softmax
-/

/--
Claim C7 (amended): the `assert channels % num_heads == 0` is exactly the
divisibility check (with `num_heads = 0` the `%` itself raises), but
divisibility by `num_heads` alone does not make construction succeed:
`norm_layer = nn.GroupNorm(32, ·)` additionally requires the channel count
to be divisible by 32.  Construction of either attention block succeeds iff
`num_heads ≠ 0`, `channels % num_heads = 0` and `channels % 32 = 0`.
-/
theorem attention_block_init_spec (channels pdim num_heads : ℕ) :
    (attentionBlockInit channels num_heads = true
      ↔ num_heads ≠ 0 ∧ channels % num_heads = 0 ∧ channels % 32 = 0)
    ∧ (crossModalAttentionBlockInit channels pdim num_heads = true
      ↔ num_heads ≠ 0 ∧ channels % num_heads = 0 ∧ channels % 32 = 0) := by
  unfold attentionBlockInit crossModalAttentionBlockInit
  refine ⟨?_, ?_⟩ <;> (split_ifs with a b c <;> simp_all)

/--
Counterexample to claim C7 as frozen: `AttentionBlock(8, 2)` has
`8 % 2 == 0`, so by the claim its construction should succeed — but
`nn.GroupNorm(32, 8)` raises at construction since `8 % 32 ≠ 0`.
-/
theorem attention_block_init_cex :
    attentionBlockInit 8 2 = false ∧ 8 % 2 = 0 := by decide

/--
Claim C6: in `CrossModalAttentionBlock.forward` the softmax normalizes the
logits over the spatial axis (the dimension of length `H*W`; the key axis
is a singleton), so for every image, sample and head the attention weights
sum to 1 across the `H*W` spatial positions.
-/
theorem cm_attn_weights_sum (chn hw : ℕ) (scale : ℝ) (q : Fin chn → Fin hw → ℝ)
    (k : Fin chn → ℝ) (hhw : 0 < hw) :
    ∑ t : Fin hw, cmAttnWeights scale q k t = 1 := by
  unfold cmAttnWeights softmaxSpatial
  rw [← Finset.sum_div]
  apply div_self
  have hne : (Finset.univ : Finset (Fin hw)).Nonempty := by
    have : Nonempty (Fin hw) := Fin.pos_iff_nonempty.mp hhw
    exact Finset.univ_nonempty
  exact ne_of_gt (Finset.sum_pos (fun s _ => Real.exp_pos _) hne)

theorem cm_attn_weights_sum_witness :
    (0:ℕ) < 1 ∧
      ∑ t : Fin 1, cmAttnWeights (0:ℝ) (fun (_ : Fin 1) (_ : Fin 1) => (0:ℝ))
        (fun (_ : Fin 1) => (0:ℝ)) t = 1 :=
  ⟨by decide, cm_attn_weights_sum 1 1 0 _ _ (by decide)⟩

/--
Claim C5: `timestep_embedding` is a pure function of
`(timesteps, dim, max_period)` — the batch output is one row per timestep,
obtained by the same deterministic row function (second conjunct).  Each row
has length `dim` (third conjunct); with `half = dim // 2` and
`freq_i = exp(-ln(max_period) * i / half)`, column `i < half` holds
`cos(t * freq_i)`, column `half + i` holds `sin(t * freq_i)`, and for odd
`dim` one extra zero column is appended at position `dim - 1`.
-/
theorem timestep_embedding_spec (ts : List ℝ) (t : ℝ) (dim : ℕ) (mp : ℝ) :
    (timestep_embedding ts dim mp).length = ts.length
    ∧ timestep_embedding ts dim mp = ts.map (fun u => timestep_embedding_row u dim mp)
    ∧ (timestep_embedding_row t dim mp).length = dim
    ∧ (∀ i, i < dim / 2 →
        (timestep_embedding_row t dim mp).getD i 0 = Real.cos (t * tsFreq dim mp i))
    ∧ (∀ i, i < dim / 2 →
        (timestep_embedding_row t dim mp).getD (dim / 2 + i) 0
          = Real.sin (t * tsFreq dim mp i))
    ∧ (dim % 2 = 1 → (timestep_embedding_row t dim mp).getD (dim - 1) 0 = 0) := by
  have hA : (((List.range (dim / 2)).map
        (fun i : ℕ => Real.exp (-Real.log mp * (i : ℝ) / ((dim / 2 : ℕ) : ℝ)))).map
          (fun f => t * f)).map Real.cos
      = (List.range (dim / 2)).map (fun i : ℕ => Real.cos (t * tsFreq dim mp i)) := by
    rw [List.map_map, List.map_map]
    rfl
  have hB : (((List.range (dim / 2)).map
        (fun i : ℕ => Real.exp (-Real.log mp * (i : ℝ) / ((dim / 2 : ℕ) : ℝ)))).map
          (fun f => t * f)).map Real.sin
      = (List.range (dim / 2)).map (fun i : ℕ => Real.sin (t * tsFreq dim mp i)) := by
    rw [List.map_map, List.map_map]
    rfl
  have hrow : timestep_embedding_row t dim mp
      = ((List.range (dim / 2)).map (fun i : ℕ => Real.cos (t * tsFreq dim mp i)) ++
          (List.range (dim / 2)).map (fun i : ℕ => Real.sin (t * tsFreq dim mp i))) ++
          (if dim % 2 = 1 then [0] else []) := by
    simp only [timestep_embedding_row]
    rw [hA, hB]
  have hlenA : ((List.range (dim / 2)).map
      (fun i : ℕ => Real.cos (t * tsFreq dim mp i))).length = dim / 2 := by simp
  have hlenAB : (((List.range (dim / 2)).map
        (fun i : ℕ => Real.cos (t * tsFreq dim mp i))) ++
      (List.range (dim / 2)).map (fun i : ℕ => Real.sin (t * tsFreq dim mp i))).length
      = dim / 2 + dim / 2 := by simp
  have hdm := Nat.div_add_mod dim 2
  have hmr : ∀ (f : ℕ → ℝ) (i : ℕ), i < dim / 2 →
      ((List.range (dim / 2)).map f).getD i 0 = f i := by
    intro f i hi
    rw [List.getD_eq_getElem?_getD, List.getElem?_map, List.getElem?_range hi]
    rfl
  refine ⟨by simp [timestep_embedding], rfl, ?_, ?_, ?_, ?_⟩
  · rw [hrow]
    by_cases hodd : dim % 2 = 1 <;> simp [hodd] <;> omega
  · intro i hi
    rw [hrow, List.getD_append _ _ _ _ (by rw [hlenAB]; omega),
      List.getD_append _ _ _ _ (by rw [hlenA]; omega)]
    exact hmr _ i hi
  · intro i hi
    rw [hrow, List.getD_append _ _ _ _ (by rw [hlenAB]; omega),
      List.getD_append_right _ _ _ _ (by rw [hlenA]; omega)]
    rw [show dim / 2 + i - ((List.range (dim / 2)).map
        (fun i : ℕ => Real.cos (t * tsFreq dim mp i))).length = i from by rw [hlenA]; omega]
    exact hmr _ i hi
  · intro hodd
    rw [hrow, List.getD_append_right _ _ _ _ (by rw [hlenAB]; omega)]
    rw [show dim - 1 - (((List.range (dim / 2)).map
          (fun i : ℕ => Real.cos (t * tsFreq dim mp i))) ++
        (List.range (dim / 2)).map (fun i : ℕ => Real.sin (t * tsFreq dim mp i))).length = 0
      from by rw [hlenAB]; omega]
    rw [if_pos hodd]
    rfl

theorem timestep_embedding_spec_witness :
    (0:ℕ) < 2 / 2 ∧
      (timestep_embedding_row 0 2 10000).getD 0 0 = Real.cos (0 * tsFreq 2 10000 0) :=
  ⟨by decide, (timestep_embedding_spec [] 0 2 10000).2.2.2.1 0 (by decide)⟩

/-!
### Non-interference facts about the two forward passes
-/

theorem downPassV_len {Img Emb PF : Type} (emb : Emb) (pf : PF) :
    ∀ (ms : List (Img → Emb → PF → Img)) (h : Img) (hs : List Img),
      ((downPassV emb pf ms h hs).2).length = ms.length + hs.length := by
  intro ms
  induction ms with
  | nil => intro h hs; simp [downPassV]
  | cons m ms ih =>
      intro h hs
      rw [show downPassV emb pf (m :: ms) h hs
          = downPassV emb pf ms (m h emb pf) (m h emb pf :: hs) from rfl, ih]
      simp
      omega

theorem upPassV_isSome {Img Emb PF : Type} (emb : Emb) (pf : PF) (cat : Img → Img → Img) :
    ∀ (ms : List (Img → Emb → PF → Img)) (h : Img) (hs : List Img),
      (upPassV emb pf cat ms h hs).isSome = true ↔ ms.length ≤ hs.length := by
  intro ms
  induction ms with
  | nil => intro h hs; simp [upPassV]
  | cons m ms ih =>
      intro h hs
      cases hs with
      | nil => simp [upPassV]
      | cons top hs =>
          rw [show upPassV emb pf cat (m :: ms) h (top :: hs)
              = upPassV emb pf cat ms (m (cat h top) emb pf) hs from rfl]
          rw [ih]
          simp

/--
Claim C9: the second output of `UNet.forward` is independent of the image
input.  For any weights, `param_out` equals
`param_out(param_encoder(params, time_embed(timestep_embedding(timesteps))))`
whenever the pass completes — a value computed from `params` and
`timesteps` only — so two forward calls that differ only in `x` return the
same second component (and the pass completes, or not, independently of
`x`: it depends only on the block-list lengths).
-/
theorem unet_param_out_independent {Img Emb PF Par TS : Type}
    (M : UNetModel Img Emb PF Par TS) (x x' : Img) (p : Par) (t : TS) :
    ((M.forward x p t).map (·.2) = (M.forward x' p t).map (·.2))
    ∧ ((M.forward x p t).map (·.2)
        = if M.up_blocks.length ≤ M.down_blocks.length
          then some (M.param_out (M.param_encoder p (M.time_embed (M.timestepEmb t))))
          else none) := by
  suffices hfor : ∀ y : Img, (M.forward y p t).map (·.2)
      = if M.up_blocks.length ≤ M.down_blocks.length
        then some (M.param_out (M.param_encoder p (M.time_embed (M.timestepEmb t))))
        else none from ⟨(hfor x).trans (hfor x').symm, hfor x⟩
  intro y
  have hlen : ((downPassV (M.time_embed (M.timestepEmb t))
      (M.param_encoder p (M.time_embed (M.timestepEmb t))) M.down_blocks y []).2).length
      = M.down_blocks.length := by
    rw [downPassV_len]
    rfl
  have hiff := upPassV_isSome (M.time_embed (M.timestepEmb t))
    (M.param_encoder p (M.time_embed (M.timestepEmb t))) M.cat M.up_blocks
    (M.middle_block (downPassV (M.time_embed (M.timestepEmb t))
      (M.param_encoder p (M.time_embed (M.timestepEmb t))) M.down_blocks y []).1
      (M.time_embed (M.timestepEmb t))
      (M.param_encoder p (M.time_embed (M.timestepEmb t))))
    (downPassV (M.time_embed (M.timestepEmb t))
      (M.param_encoder p (M.time_embed (M.timestepEmb t))) M.down_blocks y []).2
  rw [hlen] at hiff
  show ((upPassV (M.time_embed (M.timestepEmb t))
      (M.param_encoder p (M.time_embed (M.timestepEmb t))) M.cat M.up_blocks
      (M.middle_block (downPassV (M.time_embed (M.timestepEmb t))
        (M.param_encoder p (M.time_embed (M.timestepEmb t))) M.down_blocks y []).1
        (M.time_embed (M.timestepEmb t))
        (M.param_encoder p (M.time_embed (M.timestepEmb t))))
      (downPassV (M.time_embed (M.timestepEmb t))
        (M.param_encoder p (M.time_embed (M.timestepEmb t))) M.down_blocks y []).2).map
        (fun hF => (M.img_out hF, M.param_out
          (M.param_encoder p (M.time_embed (M.timestepEmb t)))))).map (·.2)
    = if M.up_blocks.length ≤ M.down_blocks.length
      then some (M.param_out (M.param_encoder p (M.time_embed (M.timestepEmb t))))
      else none
  cases hup : upPassV (M.time_embed (M.timestepEmb t))
      (M.param_encoder p (M.time_embed (M.timestepEmb t))) M.cat M.up_blocks
      (M.middle_block (downPassV (M.time_embed (M.timestepEmb t))
        (M.param_encoder p (M.time_embed (M.timestepEmb t))) M.down_blocks y []).1
        (M.time_embed (M.timestepEmb t))
        (M.param_encoder p (M.time_embed (M.timestepEmb t))))
      (downPassV (M.time_embed (M.timestepEmb t))
        (M.param_encoder p (M.time_embed (M.timestepEmb t))) M.down_blocks y []).2 with
  | none =>
      rw [hup] at hiff
      rw [if_neg (fun hP => absurd (hiff.mpr hP) (by simp))]
      rfl
  | some hF =>
      rw [hup] at hiff
      rw [if_pos (hiff.mp (by simp))]
      rfl

/--
Claim C8: `UNet_Energy.forward(x, params, prop, timesteps)` never reads its
`prop` argument — any two values of `prop` give identical outputs (first
conjunct, over arbitrary weights and value types) — and at shape level,
for every valid energy configuration and divisible input size, the result
is a single `(N, prop_dim)` tensor: the encoder's skip stack is collected
but discarded and no decoder runs (see `energyForwardShape`).
-/
theorem energy_forward_spec :
    (∀ (Img Emb PF Par Pr Out TS : Type)
        (M : UNetEnergyModel Img Emb PF Par Pr Out TS)
        (x : Img) (p : Par) (t : TS) (prop1 prop2 : Pr),
        M.forward x p prop1 t = M.forward x p prop2 t)
    ∧ (∀ (e : UNetEnergyCfg) (N h w : ℕ), validEnergyConfig e → 1 ≤ h → 1 ≤ w →
        energyForwardShape e
            ⟨N, e.in_channels, 2 ^ (e.channel_mult.length - 1) * h,
              2 ^ (e.channel_mult.length - 1) * w⟩ e.param_dim
          = some (N, e.prop_dim)) := by
  constructor
  · intro Img Emb PF Par Pr Out TS M x p t prop1 prop2
    rfl
  · intro e N h w hv hh hw
    obtain ⟨hne, hnh, _⟩ := hv
    obtain ⟨m0, rest, hms⟩ := List.exists_cons_of_ne_nil hne
    have hbase : e.base.channel_mult = m0 :: rest := hms
    have hS1 : (1:ℕ) ≤ 2 ^ ((m0 :: rest).length - 1) * h :=
      Nat.mul_pos (Nat.pos_pow_of_pos _ (by norm_num)) hh
    have hT1 : (1:ℕ) ≤ 2 ^ ((m0 :: rest).length - 1) * w :=
      Nat.mul_pos (Nat.pos_pow_of_pos _ (by norm_num)) hw
    have hdvd : ∀ m ∈ (m0 :: rest), e.base.num_heads ∣ m * e.base.model_channels :=
      fun m _ => Dvd.dvd.mul_left hnh m
    obtain ⟨hrun, hfold, _⟩ := downLevels_run e.base N (m0 :: rest) e.base.model_channels
      1 h w
      [⟨N, e.base.model_channels, 2 ^ ((m0 :: rest).length - 1) * h,
        2 ^ ((m0 :: rest).length - 1) * w⟩] hh hw hdvd
    have hconv : runLayers (N, e.base.param_hidden_dim) (e.base.model_channels * 4)
        [Layer.conv2d e.base.in_channels e.base.model_channels 3 1 1]
        ⟨N, e.base.in_channels, 2 ^ ((m0 :: rest).length - 1) * h,
          2 ^ ((m0 :: rest).length - 1) * w⟩
        = some ⟨N, e.base.model_channels, 2 ^ ((m0 :: rest).length - 1) * h,
            2 ^ ((m0 :: rest).length - 1) * w⟩ := by
      rw [runLayers_singleton]
      exact conv2dShape_k3p1 e.base.in_channels e.base.model_channels N
        e.base.in_channels _ _ rfl hS1 hT1
    have hdown : runDownStages (N, e.base.param_hidden_dim) (e.base.model_channels * 4)
        (downResult e.base).1
        ⟨N, e.base.in_channels, 2 ^ ((m0 :: rest).length - 1) * h,
          2 ^ ((m0 :: rest).length - 1) * w⟩ []
        = some (⟨N, (downLevels e.base (m0 :: rest) e.base.model_channels 1).2.2.1, h, w⟩,
            encPushes e.base N (m0 :: rest) e.base.model_channels
                (2 ^ ((m0 :: rest).length - 1) * h) (2 ^ ((m0 :: rest).length - 1) * w) ++
              [⟨N, e.base.model_channels, 2 ^ ((m0 :: rest).length - 1) * h,
                2 ^ ((m0 :: rest).length - 1) * w⟩]) := by
      rw [show (downResult e.base).1
          = [Layer.conv2d e.base.in_channels e.base.model_channels 3 1 1] ::
            (downLevels e.base e.base.channel_mult e.base.model_channels 1).1 from rfl,
        hbase, runDownStages_cons, hconv, Option.some_bind, hrun]
    have hchMid : e.base.num_heads
        ∣ (downLevels e.base (m0 :: rest) e.base.model_channels 1).2.2.1 := by
      rw [hfold]
      rcases foldl_chAfterL_mem e.base (m0 :: rest) e.base.model_channels with
        h1 | ⟨m', _, h2⟩
      · rw [h1]; exact hnh
      · rw [h2]; exact Dvd.dvd.mul_left hnh m'
    have hmidC : (downResult e.base).2.2.1
        = (downLevels e.base (m0 :: rest) e.base.model_channels 1).2.2.1 := by
      rw [show (downResult e.base).2.2.1
          = (downLevels e.base e.base.channel_mult e.base.model_channels 1).2.2.1
        from rfl, hbase]
    have hmid : runLayers (N, e.base.param_hidden_dim) (e.base.model_channels * 4)
        (middleBlock e.base (downResult e.base).2.2.1)
        ⟨N, (downLevels e.base (m0 :: rest) e.base.model_channels 1).2.2.1, h, w⟩
        = some ⟨N, (downLevels e.base (m0 :: rest) e.base.model_channels 1).2.2.1, h, w⟩ := by
      rw [hmidC]
      exact runLayers_middle e.base _ N h w hchMid hh hw
    show energyForwardShape e
        ⟨N, e.in_channels, 2 ^ (e.channel_mult.length - 1) * h,
          2 ^ (e.channel_mult.length - 1) * w⟩ e.param_dim = some (N, e.prop_dim)
    rw [hms]
    unfold energyForwardShape
    have hpe : paramEncoderShape e.base
        (Shape4.n ⟨N, e.in_channels, 2 ^ ((m0 :: rest).length - 1) * h,
          2 ^ ((m0 :: rest).length - 1) * w⟩)
        e.param_dim (e.base.model_channels * 4) = some (N, e.base.param_hidden_dim) := by
      simp [paramEncoderShape, UNetEnergyCfg.base]
    rw [hpe, Option.some_bind]
    rw [show (⟨N, e.in_channels, 2 ^ ((m0 :: rest).length - 1) * h,
        2 ^ ((m0 :: rest).length - 1) * w⟩ : Shape4)
      = ⟨N, e.base.in_channels, 2 ^ ((m0 :: rest).length - 1) * h,
        2 ^ ((m0 :: rest).length - 1) * w⟩ from rfl]
    rw [hdown, Option.some_bind]
    simp only []
    rw [hmid, Option.some_bind]
    rw [show propHeadShape e (downResult e.base).2.2.1
        ⟨N, (downLevels e.base (m0 :: rest) e.base.model_channels 1).2.2.1, h, w⟩
      = some (N, e.prop_dim) from by
        unfold propHeadShape
        rw [if_pos ⟨hh, hw, hmidC.symm⟩]]

theorem energy_forward_spec_witness :
    validEnergyConfig tinyEnergyCfg ∧
      energyForwardShape tinyEnergyCfg
          ⟨3, tinyEnergyCfg.in_channels, 2 ^ (tinyEnergyCfg.channel_mult.length - 1) * 1,
            2 ^ (tinyEnergyCfg.channel_mult.length - 1) * 1⟩ tinyEnergyCfg.param_dim
        = some (3, tinyEnergyCfg.prop_dim) :=
  ⟨by decide, energy_forward_spec.2 tinyEnergyCfg 3 1 1 (by decide) (by decide) (by decide)⟩

/-!
### The implicit 32-group normalization constraint
-/

theorem downLevels_chOut (cfg : UNetCfg) :
    ∀ (ms : List ℕ) (ch ds : ℕ),
      (downLevels cfg ms ch ds).2.2.1 = ms.foldl (chAfterL cfg) ch := by
  intro ms
  induction ms with
  | nil => intro ch ds; rfl
  | cons m rest ih =>
      intro ch ds
      rw [List.foldl_cons]
      cases rest with
      | nil =>
          rw [downLevels_one, List.foldl_nil]
          show (downResBlocks cfg m cfg.num_res_blocks ch ds).2.2 = _
          rw [(downResBlocks_chans cfg m cfg.num_res_blocks ch ds).2]
          rfl
      | cons m2 rest2 =>
          rw [downLevels_cons2]
          show (downLevels cfg (m2 :: rest2)
              (downResBlocks cfg m cfg.num_res_blocks ch ds).2.2 (ds * 2)).2.2.1 = _
          rw [ih _ (ds * 2), (downResBlocks_chans cfg m cfg.num_res_blocks ch ds).2]
          rfl

theorem foldl_chAfterL_id (cfg : UNetCfg) (hR : cfg.num_res_blocks = 0) :
    ∀ (ms : List ℕ) (ch : ℕ), ms.foldl (chAfterL cfg) ch = ch := by
  intro ms
  induction ms with
  | nil => intro ch; rfl
  | cons m rest ih =>
      intro ch
      rw [List.foldl_cons]
      have hc : chAfterL cfg ch m = ch := by simp [chAfterL, hR]
      rw [hc]
      exact ih ch

theorem mem_middle_norm (cfg : UNetCfg) (ch : ℕ) :
    ch ∈ (middleBlock cfg ch).flatMap layerNormChans := by
  refine List.mem_flatMap.mpr
    ⟨Layer.resblock ch ch (cfg.model_channels * 4), ?_, ?_⟩
  · simp [middleBlock]
  · simp [layerNormChans]

theorem mem_downResBlocks_norm (cfg : UNetCfg) (m n ch ds : ℕ) (hn : n ≠ 0) :
    ch ∈ (downResBlocks cfg m n ch ds).1.flatMap (fun st => st.flatMap layerNormChans) := by
  obtain ⟨k, rfl⟩ := Nat.exists_eq_succ_of_ne_zero hn
  refine List.mem_flatMap.mpr
    ⟨Layer.resblock ch (m * cfg.model_channels) (cfg.model_channels * 4) ::
      attnLayers cfg ds (m * cfg.model_channels), ?_, ?_⟩
  · show _ ∈ (downResBlocks cfg m (k + 1) ch ds).1
    simp only [downResBlocks]
    exact List.mem_cons_self _ _
  · simp [layerNormChans]

theorem mem_downLevels_norm (cfg : UNetCfg) (m0 : ℕ) (rest : List ℕ) (ch ds : ℕ)
    (hR : cfg.num_res_blocks ≠ 0) :
    ch ∈ (downLevels cfg (m0 :: rest) ch ds).1.flatMap
      (fun st => st.flatMap layerNormChans) := by
  cases rest with
  | nil =>
      rw [downLevels_one]
      exact mem_downResBlocks_norm cfg m0 cfg.num_res_blocks ch ds hR
  | cons m2 rest2 =>
      rw [downLevels_cons2]
      show ch ∈ ((downResBlocks cfg m0 cfg.num_res_blocks ch ds).1 ++
        [Layer.downsample (downResBlocks cfg m0 cfg.num_res_blocks ch ds).2.2
            cfg.conv_resample] ::
          (downLevels cfg (m2 :: rest2)
            (downResBlocks cfg m0 cfg.num_res_blocks ch ds).2.2 (ds * 2)).1).flatMap _
      rw [List.flatMap_append]
      exact List.mem_append_left _ (mem_downResBlocks_norm cfg m0 cfg.num_res_blocks ch ds hR)

theorem mc_mem_downMiddle (cfg : UNetCfg) :
    cfg.model_channels ∈
      ((downResult cfg).1.flatMap (fun st => st.flatMap layerNormChans)) ++
        (middleBlock cfg (downResult cfg).2.2.1).flatMap layerNormChans := by
  by_cases hstar : cfg.num_res_blocks ≠ 0 ∧ cfg.channel_mult ≠ []
  · obtain ⟨hR, hne⟩ := hstar
    obtain ⟨m0, rest, hms⟩ := List.exists_cons_of_ne_nil hne
    refine List.mem_append_left _ ?_
    rw [show (downResult cfg).1
        = [Layer.conv2d cfg.in_channels cfg.model_channels 3 1 1] ::
          (downLevels cfg cfg.channel_mult cfg.model_channels 1).1 from rfl,
      List.flatMap_cons]
    refine List.mem_append_right _ ?_
    rw [hms]
    exact mem_downLevels_norm cfg m0 rest cfg.model_channels 1 hR
  · have hch : (downResult cfg).2.2.1 = cfg.model_channels := by
      show (downLevels cfg cfg.channel_mult cfg.model_channels 1).2.2.1 = _
      rcases not_and_or.mp hstar with h | h
      · rw [downLevels_chOut, foldl_chAfterL_id cfg (not_not.mp h)]
      · rw [not_not.mp h]
        rfl
    refine List.mem_append_right _ ?_
    rw [hch]
    exact mem_middle_norm cfg cfg.model_channels

theorem unetConstructOK_norms (cfg : UNetCfg) (h : unetConstructOK cfg = true) :
    ∀ c ∈ unetNormChans cfg, c % 32 = 0 := by
  intro c hc
  rw [unetConstructOK, Bool.and_eq_true] at h
  have h1 := h.1
  rw [List.all_eq_true] at h1
  exact of_decide_eq_true (h1 c hc)

theorem energyConstructOK_norms (e : UNetEnergyCfg) (h : energyConstructOK e = true) :
    ∀ c ∈ energyNormChans e, c % 32 = 0 := by
  intro c hc
  rw [energyConstructOK, Bool.and_eq_true] at h
  have h1 := h.1
  rw [List.all_eq_true] at h1
  exact of_decide_eq_true (h1 c hc)

theorem mc_mem_unetNormChans (cfg : UNetCfg) :
    cfg.model_channels ∈ unetNormChans cfg := by
  unfold unetNormChans
  exact List.mem_append_left _ (List.mem_append_left _ (mc_mem_downMiddle cfg))

theorem mc_mem_energyNormChans (e : UNetEnergyCfg) :
    e.base.model_channels ∈ energyNormChans e := by
  unfold energyNormChans
  exact mc_mem_downMiddle e.base

/--
Claim C10: every grouped normalization created while constructing a `UNet`
or a `UNet_Energy` (in `ResidualBlock`s, attention blocks, and the image
output head) is a fixed `nn.GroupNorm(32, c)`; since `model_channels`
itself always appears among the created norm channel counts (in the first
encoder residual block, or in the middle block when no residual block
changes the channel count), construction can only succeed when
`32 ∣ model_channels` — and hence `32 ∣ mult * model_channels` for every
multiplier as well.
-/
theorem groupnorm_32_constraint (cfg : UNetCfg) (e : UNetEnergyCfg) :
    (unetConstructOK cfg = true →
        32 ∣ cfg.model_channels ∧
          ∀ m ∈ cfg.channel_mult, 32 ∣ m * cfg.model_channels) ∧
      (energyConstructOK e = true →
        32 ∣ e.model_channels ∧
          ∀ m ∈ e.channel_mult, 32 ∣ m * e.model_channels) := by
  constructor
  · intro h
    have hmc : 32 ∣ cfg.model_channels :=
      Nat.dvd_of_mod_eq_zero (unetConstructOK_norms cfg h _ (mc_mem_unetNormChans cfg))
    exact ⟨hmc, fun m _ => Dvd.dvd.mul_left hmc m⟩
  · intro h
    have hmc : 32 ∣ e.model_channels :=
      Nat.dvd_of_mod_eq_zero (energyConstructOK_norms e h _ (mc_mem_energyNormChans e))
    exact ⟨hmc, fun m _ => Dvd.dvd.mul_left hmc m⟩

theorem groupnorm_32_constraint_witness :
    (unetConstructOK tinyCfg = true ∧ energyConstructOK tinyEnergyCfg = true)
    ∧ (32 ∣ tinyCfg.model_channels ∧
        ∀ m ∈ tinyCfg.channel_mult, 32 ∣ m * tinyCfg.model_channels)
    ∧ (32 ∣ tinyEnergyCfg.model_channels ∧
        ∀ m ∈ tinyEnergyCfg.channel_mult, 32 ∣ m * tinyEnergyCfg.model_channels) :=
  ⟨⟨by decide, by decide⟩,
    (groupnorm_32_constraint tinyCfg tinyEnergyCfg).1 (by decide),
    (groupnorm_32_constraint tinyCfg tinyEnergyCfg).2 (by decide)⟩

end UNetSpec
